import Mathlib

/-!
Verification development for the subv assembler pipeline
(`subv.py`, `bits.py`, `format.py`, `survey.py`, `pack.py`).

The Python modules are shallowly embedded: each module becomes a namespace,
each function a Lean definition of the same name.  Python integers are
`Int`/`Nat`, bitfields are pairs `(value, width) : Nat × Nat`, fallible
functions return `Except Err`.  Strings are processed as `List Char`
through structurally recursive helpers so that every definition evaluates
inside the kernel.
-/

/-- The `ValueError` / `AssertionError` / unpacking failures raised by the
Python sources, as a closed error type. -/
inductive Err where
  | negative (n : Int)
  | tooLarge (n : Nat) (w : Nat)
  | signedRange (n : Int) (w : Nat)
  | reverseRange
  | sliceRange (hi lo : Int) (w : Nat)
  | refOutOfBounds
  | refNoBounds
  | assertWidth (size : Nat)
  | invalidSegment
  | valueError (s : String)
  | typeError
  | indexError
  | keyError
  | unpackError
  | tagMismatch
  | unknownInstr (l : String)
  | opcodeMismatch (op : Int) (l : String) (expected : Nat)
  | opArity
  | shapeArity
  | refParse
  | notByteAligned (w : Nat)
  | undefinedLabel (l : String)
  | notImplemented
deriving DecidableEq

/-- Monadic map over a list, written structurally so the kernel reduces it. -/
def mapME {α β : Type} (f : α → Except Err β) : List α → Except Err (List β)
  | [] => .ok []
  | a :: rest => do
    let b ← f a
    let bs ← mapME f rest
    .ok (b :: bs)

/-! ### Character classes and digit strings -/

/-- Characters stripped by Python `str.strip()` (the ones that occur in this
pipeline's inputs). -/
def isStripWh (c : Char) : Bool :=
  c = ' ' ∨ c = '\t' ∨ c = '\n' ∨ c = '\r'

/-- Separator class of the shared regex `white = [ \t\.\n]+` in `subv.py`. -/
def isSepWh (c : Char) : Bool :=
  c = ' ' ∨ c = '\t' ∨ c = '.' ∨ c = '\n'

/-- Lowercase hexadecimal digits, the class `[0-9a-f]` of the `hex` regex. -/
def isHexDigit (c : Char) : Bool :=
  ('0' ≤ c ∧ c ≤ '9') ∨ ('a' ≤ c ∧ c ≤ 'f')

/-- Hexadecimal digits of either case, accepted by Python `int(s, 16)`. -/
def isHexDigitAny (c : Char) : Bool :=
  ('0' ≤ c ∧ c ≤ '9') ∨ ('a' ≤ c ∧ c ≤ 'f') ∨ ('A' ≤ c ∧ c ≤ 'F')

/-- Decimal digits `\d`. -/
def isDecDigit (c : Char) : Bool :=
  '0' ≤ c ∧ c ≤ '9'

/-- Numeric value of a hexadecimal digit character. -/
def hexVal (c : Char) : Nat :=
  if '0' ≤ c ∧ c ≤ '9' then c.toNat - '0'.toNat
  else if 'a' ≤ c ∧ c ≤ 'f' then c.toNat - 'a'.toNat + 10
  else if 'A' ≤ c ∧ c ≤ 'F' then c.toNat - 'A'.toNat + 10
  else 0

/-- Little-endian digits of `n` in base `b`, with explicit fuel so the
definition is structural. -/
def digitsRevAux (b : Nat) : Nat → Nat → List Nat
  | 0, _ => []
  | fuel+1, n => if n < b then [n] else n % b :: digitsRevAux b fuel (n / b)

/-- Render `n` in base `b` using lowercase digits (`Nat.digitChar`). -/
def natDigits (b : Nat) (n : Nat) : List Char :=
  ((digitsRevAux b (n + 1) n).map Nat.digitChar).reverse

/-- Fold a digit string back into a number, most significant digit first. -/
def foldDigits (b : Nat) (cs : List Char) : Nat :=
  cs.foldl (fun a c => a * b + hexVal c) 0

/-- Python `'{:02x}'.format(n)`: lowercase hex, zero-padded to overall
width 2 (the sign counts toward the width). -/
def hex02 (n : Int) : String :=
  if n < 0 then String.mk ('-' :: natDigits 16 n.natAbs)
  else
    let ds := natDigits 16 n.toNat
    String.mk (if ds.length < 2 then '0' :: ds else ds)

/-- Decimal rendering of a natural, Python `str(n)`. -/
def decRepr (n : Nat) : String :=
  String.mk (natDigits 10 n)

/-- The regex `^-?(0x)?[0-9a-f]+$` of `subv.py` as a decidable match. -/
def matchesHex (s : String) : Bool :=
  let cs := if s.data.head? = some '-' then s.data.tail else s.data
  if cs.take 2 = ['0', 'x'] then ¬ (cs.drop 2).isEmpty ∧ (cs.drop 2).all isHexDigit
  else ¬ cs.isEmpty ∧ cs.all isHexDigit

/-- Python `int(s, 16)` on strings matched by the `hex` regex: optional
sign, optional `0x` prefix, hex digits. -/
def parseHexInt (s : String) : Int :=
  let sgn := s.data.head? = some '-'
  let cs := if sgn then s.data.tail else s.data
  let cs := if cs.take 2 = ['0', 'x'] then cs.drop 2 else cs
  if sgn then -(foldDigits 16 cs : Int) else (foldDigits 16 cs : Int)

/-- Python `int(s, 16)` where the string has not been vetted by a regex
(segment base addresses): optional sign, optional `0x`/`0X`, at least one
hex digit of either case, nothing else. -/
def parseHexPy (s : String) : Except Err Int :=
  let (sgn, cs) := match s.data with
    | '-' :: rest => (true, rest)
    | '+' :: rest => (false, rest)
    | cs => (false, cs)
  let cs := match cs with
    | '0' :: 'x' :: rest => rest
    | '0' :: 'X' :: rest => rest
    | cs => cs
  if cs.isEmpty ∨ ¬ cs.all isHexDigitAny then .error (.valueError s)
  else
    let v := foldDigits 16 cs
    .ok (if sgn then -(v : Int) else (v : Int))

/-- Python `int(s)` (base 10) on width tags: optional sign, decimal digits. -/
def parseDecPy (s : String) : Except Err Int :=
  let (sgn, cs) := match s.data with
    | '-' :: rest => (true, rest)
    | '+' :: rest => (false, rest)
    | cs => (false, cs)
  if cs.isEmpty ∨ ¬ cs.all isDecDigit then .error (.valueError s)
  else
    let v := foldDigits 10 cs
    .ok (if sgn then -(v : Int) else (v : Int))

/-- Decimal value of an already-vetted `\d+` group. -/
def parseDecNat (s : String) : Nat := foldDigits 10 s.data

/-! ### List-of-characters splitting -/

/-- Split on a single character, keeping empty components
(Python `str.split(sep)`). -/
def splitChAux (sep : Char) : List Char → List Char → List String
  | [], acc => [String.mk acc.reverse]
  | c :: rest, acc =>
    if c = sep then String.mk acc.reverse :: splitChAux sep rest []
    else splitChAux sep rest (c :: acc)

/-- Python `s.split('/')`. -/
def splitSlash (s : String) : List String := splitChAux '/' s.data []

/-- `re.split(r'[ \t\.\n]+', s)`: runs of separator characters collapse to
one boundary; a leading or trailing run contributes an empty component. -/
def splitWhAux : List Char → List Char → List String
  | [], acc => [String.mk acc.reverse]
  | [c], acc =>
    if isSepWh c then [String.mk acc.reverse, ""]
    else [String.mk (c :: acc).reverse]
  | c :: c2 :: rest, acc =>
    if isSepWh c then
      if isSepWh c2 then splitWhAux (c2 :: rest) acc
      else String.mk acc.reverse :: splitWhAux (c2 :: rest) []
    else splitWhAux (c2 :: rest) (c :: acc)

/-- `white.split(s)` from `subv.py`. -/
def splitWh (s : String) : List String := splitWhAux s.data []

/-- Python `str.strip()`. -/
def strip (s : String) : String :=
  String.mk (((s.data.dropWhile isStripWh).reverse.dropWhile isStripWh).reverse)

/-- Split at the first `#` (Python `raw.split('#', 1)`), returning the text
before it and, when a `#` exists, the text after it. -/
def splitHashAux : List Char → List Char → String × Option String
  | [], acc => (String.mk acc.reverse, none)
  | c :: rest, acc =>
    if c = '#' then (String.mk acc.reverse, some (String.mk rest))
    else splitHashAux rest (c :: acc)

def splitHash (s : String) : String × Option String := splitHashAux s.data []

/-- Python `sep.join(list)`. -/
def joinStrs (sep : String) : List String → String
  | [] => ""
  | [s] => s
  | s :: rest => s ++ sep ++ joinStrs sep rest

/-- The run `[^\\[]+` of the slice regex: characters up to the first `[`. -/
def takeNotBr : List Char → List Char
  | [] => []
  | c :: rest => if c = '[' then [] else c :: takeNotBr rest

def dropNotBr : List Char → List Char
  | [] => []
  | c :: rest => if c = '[' then c :: rest else dropNotBr rest

/-- A `\\d+` run: leading decimal digits. -/
def takeDigits : List Char → List Char
  | [] => []
  | c :: rest => if isDecDigit c then c :: takeDigits rest else []

def dropDigits : List Char → List Char
  | [] => []
  | c :: rest => if isDecDigit c then dropDigits rest else c :: rest

/-! ### The IL data model (`subv.py`) -/

/-- The head of a part: an integer literal or a symbolic reference string. -/
inductive Head where
  | num (n : Int)
  | sym (s : String)
deriving DecidableEq

/-- One `/`-separated token of an instruction line: head plus tag list. -/
structure IlPart where
  head : Head
  tags : List String
deriving DecidableEq

/-- The four line kinds of the IL, with their parsed payloads. -/
inductive Parsed where
  | empty
  | segment (name : String) (base : Option Int)
  | label (name : String)
  | instr (parts : List IlPart)
deriving DecidableEq

/-- The dictionary returned by `subv.parse`. -/
structure Line where
  raw : String
  clean : String
  comment : Option String
  parsed : Parsed
deriving DecidableEq

/-- The dictionary returned by `subv.parse_reference`. -/
structure Ref where
  label : String
  mode : String
  size : Nat
  meta : List String
  bounds : Option (Nat × Nat)
deriving DecidableEq

namespace subv

/-- `subv.parse_part`: split on `/`; a head matching the hex regex becomes
an integer, anything else stays a symbolic string. -/
def parse_part (s : String) : IlPart :=
  match splitSlash s with
  | [] => ⟨.sym "", []⟩
  | c :: rest =>
    if matchesHex c then ⟨.num (parseHexInt c), rest⟩ else ⟨.sym c, rest⟩

/-- `subv.parse_instr`: split on whitespace, drop empties, parse parts. -/
def parse_instr (s : String) : List IlPart :=
  ((splitWh s).filter (fun p => p ≠ "")).map parse_part

/-- `subv.parse_segment`: `== name [hex-base]`; any other token count is
an invalid segment line.  The base is parsed with Python `int(·, 16)`. -/
def parse_segment (s : String) : Except Err (String × Option Int) :=
  match splitWh s with
  | [_, name, base] => do
    let b ← parseHexPy base
    .ok (name, some b)
  | [_, name] => .ok (name, none)
  | _ => .error .invalidSegment

/-- `subv.parse_label`: drop the trailing `:`. -/
def parse_label (s : String) : String := String.mk s.data.dropLast

/-- The regex `^([^\[]+)(?:\[(\d+):(\d+)\])?$`: label, then an optional
`[hi:lo]` slice that must reach the end of the string. -/
def matchSliceRe (s : String) : Except Err (String × Option (Nat × Nat)) :=
  let label := takeNotBr s.data
  let rest := dropNotBr s.data
  if label = [] then .error .refParse
  else
    match rest with
    | [] => .ok (String.mk label, none)
    | '[' :: r =>
      let hi := takeDigits r
      let r2 := dropDigits r
      if hi = [] then .error .refParse
      else
        match r2 with
        | ':' :: r3 =>
          let lo := takeDigits r3
          let r4 := dropDigits r3
          if lo = [] then .error .refParse
          else
            match r4 with
            | [']'] =>
              .ok (String.mk label,
                   some (foldDigits 10 hi, foldDigits 10 lo))
            | _ => .error .refParse
        | _ => .error .refParse
    | _ => .error .refParse

/-- The regex `^(imm|off)(\d+)$`. -/
def matchFieldRe (s : String) : Except Err (String × Nat) :=
  match s.data with
  | 'i' :: 'm' :: 'm' :: rest =>
    if rest.isEmpty ∨ ¬ rest.all isDecDigit then .error .refParse
    else .ok ("imm", foldDigits 10 rest)
  | 'o' :: 'f' :: 'f' :: rest =>
    if rest.isEmpty ∨ ¬ rest.all isDecDigit then .error .refParse
    else .ok ("off", foldDigits 10 rest)
  | _ => .error .refParse

/-- `subv.parse_reference`: match the head against the slice regex and the
first tag against the field regex.  A part with an integer head raises
(`TypeError` in Python); a missing first tag raises `IndexError`. -/
def parse_reference (p : IlPart) : Except Err Ref :=
  match p.head with
  | .num _ => .error .typeError
  | .sym s =>
    match p.tags with
    | [] => .error .indexError
    | field :: meta => do
      let (label, bnds) ← matchSliceRe s
      let (mode, size) ← matchFieldRe field
      .ok ⟨label, mode, size, meta, bnds⟩

/-- The line kind chosen by `subv.classify`. -/
inductive Kind where
  | empty | segment | label | instr
deriving DecidableEq

/-- `subv.classify` on the cleaned line: empty, `==` prefix, `:`
suffix, otherwise an instruction. -/
def classifyK (s : String) : Kind :=
  if s = "" then .empty
  else if s.data.take 2 = ['=', '='] then .segment
  else if s.data.getLast? = some ':' then .label
  else .instr

/-- `subv.parse`: strip, split off the comment, classify, parse. -/
def parse (s : String) : Except Err Line := do
  let raw := strip s
  let (clean, comment) := splitHash raw
  match classifyK clean with
  | .empty => .ok ⟨raw, clean, comment, .empty⟩
  | .segment => do
    let (name, base) ← parse_segment clean
    .ok ⟨raw, clean, comment, .segment name base⟩
  | .label => .ok ⟨raw, clean, comment, .label (parse_label clean)⟩
  | .instr => .ok ⟨raw, clean, comment, .instr (parse_instr clean)⟩

/-- `subv.is_reference`: the head is a string. -/
def is_reference (p : IlPart) : Bool :=
  match p.head with
  | .num _ => false
  | .sym _ => true

/-- `subv.untag`: return the head, checking the first tag when `expect`
is given (Python reads `part[1]` only in that case). -/
def untag (p : IlPart) (expect : Option String) : Except Err Head :=
  match expect with
  | none => .ok p.head
  | some e =>
    match p.tags with
    | [] => .error .indexError
    | t :: _ => if t = e then .ok p.head else .error .tagMismatch

/-- `subv.format_part`: integer heads print as `'{:02x}'`, symbolic heads
verbatim; components re-join with `/`. -/
def format_part (p : IlPart) : String :=
  match p.head with
  | .num n => joinStrs "/" (hex02 n :: p.tags)
  | .sym s => joinStrs "/" (s :: p.tags)

/-- `subv.format`: join the parts with single spaces and re-attach a
non-empty comment; only instruction lines are supported. -/
def format (l : Line) : Except Err String :=
  match l.parsed with
  | .instr ps =>
    let packed := joinStrs " " (ps.map format_part)
    .ok (match l.comment with
         | some c => if c = "" then packed else packed ++ " # " ++ c
         | none => packed)
  | _ => .error .notImplemented

end subv

/-! ### Bit arithmetic (`bits.py`) -/

/-- A concrete bitfield `(value, width)`.  `u` and `i` only ever store
non-negative values, so the value is a `Nat`. -/
abbrev Bits := Nat × Nat

namespace bits

/-- Python `int.bit_length`, with fuel for structural recursion. -/
def bitLenAux : Nat → Nat → Nat
  | 0, _ => 0
  | fuel+1, n => if n = 0 then 0 else bitLenAux fuel (n / 2) + 1

def bit_length (n : Nat) : Nat := bitLenAux n n

/-- `bits.u`: parse an unsigned integer into a bitfield. -/
def u (num : Int) (w : Nat) : Except Err Bits :=
  if num < 0 then .error (.negative num)
  else if bit_length num.toNat > w then .error (.tooLarge num.toNat w)
  else .ok (num.toNat, w)

/-- `bits.i`: parse a signed integer into a bitfield; negatives are
converted to two's complement and then `u`-checked.  (For `w = 0` the
Python source raises on `1 << (bits - 1)`; width 0 is never used.) -/
def i (num : Int) (w : Nat) : Except Err Bits :=
  let min : Int := -(2 ^ (w - 1))
  let max : Int := -1 - min
  if num > max ∨ num < min then .error (.signedRange num w)
  else if num < 0 then u (2 ^ w + num) w
  else u num w

/-- `bits.from_part`: read a size-tagged part into a bitfield.  Python
`int(part[0])` raises `ValueError` on a symbolic head; the width tag is
parsed in base 10.  Values in pack-stage input are the non-negative
bitfields printed by survey, so a negative literal (which Python's
unbounded integers would carry through) is outside this model and maps to
an error; no verified claim exercises it. -/
def from_part (p : IlPart) : Except Err Bits :=
  match p.head with
  | .sym s => .error (.valueError s)
  | .num n => do
    match p.tags with
    | [] => .error .indexError
    | t :: _ => do
      let w ← parseDecPy t
      if n < 0 ∨ w < 0 then .error (.valueError t)
      else .ok (n.toNat, w.toNat)

/-- `bits.concat`: lay bitfields out low-to-high in declaration order. -/
def concat (parts : List Bits) : Bits :=
  parts.foldl (fun acc p => (acc.1 ||| p.1 <<< acc.2, acc.2 + p.2)) (0, 0)

/-- `bits.slice`: extract bits `[hi:lo]` inclusive.  Fails on a reversed
range and on indices outside `0 ≤ lo ≤ hi < width`. -/
def slice (b : Bits) (hi lo : Int) : Except Err Bits :=
  if hi < lo then .error .reverseRange
  else if lo < 0 ∨ hi ≥ (b.2 : Int) then .error (.sliceRange hi lo b.2)
  else
    let sz := (hi - lo + 1).toNat
    .ok ((b.1 >>> lo.toNat) &&& ((1 <<< sz) - 1), sz)

end bits

/-! ### Format verifier / packer (`format.py`) -/

/-- A value flowing out of a packer: a concrete bitfield or a still-symbolic
reference part (Python mixes the two tuple shapes). -/
inductive PField where
  | bits (b : Bits)
  | part (p : IlPart)
deriving DecidableEq

namespace format

/-- Python `u`/`i` receive `part[0]`; on a string head the comparison in
`bits.u` raises `TypeError`. -/
def asInt (h : Head) : Except Err Int :=
  match h with
  | .num n => .ok n
  | .sym _ => .error .typeError

/-- `format.default_slice`: fill in a missing `[hi:lo]` slice from the
format's default and assert that the declared tag width equals the slice
width (`hi - lo + 1`, computed over the integers as in Python). -/
def default_slice (val : IlPart) (hi lo : Nat) : Except Err IlPart := do
  let parsed ← subv.parse_reference val
  let (h, l) := match parsed.bounds with
    | some b => b
    | none => (hi, lo)
  if (parsed.size : Int) = (h : Int) - (l : Int) + 1 then
    .ok ⟨.sym (parsed.label ++ "[" ++ decRepr h ++ ":" ++ decRepr l ++ "]"),
         val.tags⟩
  else .error (.assertWidth parsed.size)

/-- `format.slice_bit_or_ref`: `bits.slice` on a concrete bitfield; on a
reference, map the requested sub-slice into the reference's bit space and
re-tag its mode and size. -/
def slice_bit_or_ref (val : PField) (hi lo : Nat) : Except Err PField :=
  match val with
  | .bits b => do
    let r ← bits.slice b hi lo
    .ok (.bits r)
  | .part p => do
    let ref ← subv.parse_reference p
    match ref.bounds with
    | none => .error .refNoBounds
    | some (rhi, rlo) =>
      let sz := hi - lo
      let lo2 := rlo + lo
      let hi2 := lo2 + sz
      if hi2 ≤ rhi then
        .ok (.part ⟨.sym (ref.label ++ "[" ++ decRepr hi2 ++ ":" ++ decRepr lo2 ++ "]"),
                    (ref.mode ++ decRepr (sz + 1)) :: p.tags.drop 1⟩)
      else .error .refOutOfBounds

/-- `format.pack_u`: verify and pack U-type instructions. -/
def pack_u (instr : List IlPart) : Except Err (List PField) :=
  match instr with
  | [op, rd, imm] => do
    let opb ← bits.u (← asInt (← subv.untag op none)) 7
    let rdb ← bits.u (← asInt (← subv.untag rd (some "rd"))) 5
    if subv.is_reference imm then do
      let immf ← default_slice imm 31 12
      .ok [.bits opb, .bits rdb, .part immf]
    else do
      let immb ← bits.i (← asInt (← subv.untag imm (some "imm20"))) 20
      .ok [.bits opb, .bits rdb, .bits immb]
  | _ => .error .shapeArity

/-- `format.pack_i`: verify and pack I-type instructions. -/
def pack_i (instr : List IlPart) : Except Err (List PField) :=
  match instr with
  | [op, sub, rd, rs, imm] => do
    let opb ← bits.u (← asInt (← subv.untag op none)) 7
    let subb ← bits.u (← asInt (← subv.untag sub (some "subop"))) 3
    let rdb ← bits.u (← asInt (← subv.untag rd (some "rd"))) 5
    let rsb ← bits.u (← asInt (← subv.untag rs (some "rs"))) 5
    if subv.is_reference imm then do
      let immf ← default_slice imm 11 0
      .ok [.bits opb, .bits rdb, .bits subb, .bits rsb, .part immf]
    else do
      let immb ← bits.i (← asInt (← subv.untag imm (some "imm12"))) 12
      .ok [.bits opb, .bits rdb, .bits subb, .bits rsb, .bits immb]
  | _ => .error .shapeArity

/-- `format.pack_s`: verify and pack S-type instructions. -/
def pack_s (instr : List IlPart) : Except Err (List PField) :=
  match instr with
  | [op, sub, rs1, rs2, imm] => do
    let opb ← bits.u (← asInt (← subv.untag op none)) 7
    let subb ← bits.u (← asInt (← subv.untag sub (some "subop"))) 3
    let rs1b ← bits.u (← asInt (← subv.untag rs1 (some "rs"))) 5
    let rs2b ← bits.u (← asInt (← subv.untag rs2 (some "rs"))) 5
    let immv ← (if subv.is_reference imm then do
        let f ← default_slice imm 11 0
        pure (PField.part f)
      else do
        let b ← bits.i (← asInt (← subv.untag imm (some "off12"))) 12
        pure (PField.bits b))
    let imm_lo ← slice_bit_or_ref immv 4 0
    let imm_hi ← slice_bit_or_ref immv 11 5
    .ok [.bits opb, imm_lo, .bits subb, .bits rs1b, .bits rs2b, imm_hi]
  | _ => .error .shapeArity

/-- `format.pack_j`: verify and pack J-type instructions. -/
def pack_j (instr : List IlPart) : Except Err (List PField) :=
  match instr with
  | [op, rd, imm] => do
    let opb ← bits.u (← asInt (← subv.untag op none)) 7
    let rdb ← bits.u (← asInt (← subv.untag rd (some "rd"))) 5
    let immv ← (if subv.is_reference imm then do
        let f ← default_slice imm 20 1
        pure (PField.part f)
      else do
        let b ← bits.i (← asInt (← subv.untag imm (some "off20"))) 20
        pure (PField.bits b))
    let imm_lo ← slice_bit_or_ref immv 9 0
    let imm_11 ← slice_bit_or_ref immv 10 10
    let imm_hi ← slice_bit_or_ref immv 18 11
    let imm_20 ← slice_bit_or_ref immv 19 19
    .ok [.bits opb, .bits rdb, imm_hi, imm_11, imm_lo, imm_20]
  | _ => .error .shapeArity

/-- `format.pack_b`: verify and pack B-type instructions. -/
def pack_b (instr : List IlPart) : Except Err (List PField) :=
  match instr with
  | [op, sub, rs1, rs2, imm] => do
    let opb ← bits.u (← asInt (← subv.untag op none)) 7
    let subb ← bits.u (← asInt (← subv.untag sub (some "subop"))) 3
    let rs1b ← bits.u (← asInt (← subv.untag rs1 (some "rs"))) 5
    let rs2b ← bits.u (← asInt (← subv.untag rs2 (some "rs"))) 5
    let immv ← (if subv.is_reference imm then do
        let f ← default_slice imm 12 1
        pure (PField.part f)
      else do
        let b ← bits.i (← asInt (← subv.untag imm (some "off12"))) 12
        pure (PField.bits b))
    let imm_lo ← slice_bit_or_ref immv 3 0
    let imm_md ← slice_bit_or_ref immv 9 4
    let imm_11 ← slice_bit_or_ref immv 10 10
    let imm_12 ← slice_bit_or_ref immv 11 11
    .ok [.bits opb, imm_11, imm_lo, .bits subb, .bits rs1b, .bits rs2b, imm_md, imm_12]
  | _ => .error .shapeArity

/-- `format.instr_map`: mnemonic label to packer and canonical opcode. -/
def instr_map (l : String) : Option ((List IlPart → Except Err (List PField)) × Nat) :=
  if l = "load" then some (pack_i, 0x03)
  else if l = "opi" then some (pack_i, 0x13)
  else if l = "jalr" then some (pack_i, 0x67)
  else if l = "store" then some (pack_s, 0x23)
  else if l = "branch" then some (pack_b, 0x63)
  else if l = "lui" then some (pack_u, 0x37)
  else if l = "auipc" then some (pack_u, 0x17)
  else if l = "jal" then some (pack_j, 0x6f)
  else none

/-- The canonical opcode of a mnemonic, when known. -/
def canonOpcode (l : String) : Option Nat := (instr_map l).map (fun e => e.2)

/-- Render a packer output back into an IL part: bitfields print as
`value/width` (the Python tuple `(v, w)` stringified), references verbatim. -/
def renderField (f : PField) : IlPart :=
  match f with
  | .bits b => ⟨.num b.1, [decRepr b.2]⟩
  | .part p => p

/-- The instruction-line body of `format.format`: check the op part has
exactly one tag (the mnemonic), look the mnemonic up, verify the written
opcode against the canonical one, and run the packer. -/
def format_instr (parts : List IlPart) : Except Err (List PField) :=
  match parts with
  | [] => .error .indexError
  | op :: _ =>
    match op.tags with
    | [label] =>
      match instr_map label with
      | none => .error (.unknownInstr label)
      | some (packer, expected) =>
        match op.head with
        | .num n =>
          if n = (expected : Int) then packer parts
          else .error (.opcodeMismatch n label expected)
        | .sym s => .error (.opcodeMismatch 0 s expected)
    | _ => .error .opArity

/-- One step of the `format.format` loop: rewrite instruction lines inside
the `code` segment, update the current segment on headers, echo the raw
text of everything else. -/
def format1 (seg : Option String) (line : String) : Except Err (Option String × String) := do
  let l ← subv.parse line
  match l.parsed with
  | .instr parts =>
    if seg = some "code" then do
      let fs ← format_instr parts
      let out ← subv.format { l with parsed := .instr (fs.map renderField) }
      .ok (seg, out)
    else .ok (seg, l.raw)
  | .segment name _ => .ok (some name, l.raw)
  | _ => .ok (seg, l.raw)

def format_go (seg : Option String) : List String → Except Err (List String)
  | [] => .ok []
  | l :: rest => do
    let (seg2, out) ← format1 seg l
    let outs ← format_go seg2 rest
    .ok (out :: outs)

/-- `format.format`: the whole stage, starting outside any segment. -/
def format (lines : List String) : Except Err (List String) :=
  format_go none lines

end format

/-! ### Survey: address assignment and label resolution (`survey.py`) -/

namespace survey

/-- `survey.observe`: resolve one label reference against the symbol table,
interpreting `imm` as the absolute address and `off` as PC-relative,
then slice the 32-bit value to the reference's `[hi:lo]` range.  The
resolved Python tuple `(value, width)` is an int-headed part whose single
tag is the decimal width. -/
def observe (p : IlPart) (rel : Int) (map : List (String × Int)) : Except Err IlPart :=
  if ¬ subv.is_reference p then .ok p
  else do
    let ref ← subv.parse_reference p
    match map.lookup ref.label with
    | none => .error (.undefinedLabel ref.label)
    | some addr => do
      let a ← if ref.mode = "imm" then bits.u addr 32 else bits.i (addr - rel) 32
      match ref.bounds with
      | none => .error .keyError
      | some (hi, lo) => do
        let b ← bits.slice a hi lo
        .ok ⟨.num b.1, [decRepr b.2]⟩

/-- The bit width of one part as summed by survey's first pass: the
tag-declared size for references, `int(part[1])` for bitfields. -/
def part_width (p : IlPart) : Except Err Nat :=
  if subv.is_reference p then do
    let ref ← subv.parse_reference p
    .ok ref.size
  else
    match p.tags with
    | [] => .error .indexError
    | t :: _ => do
      let w ← parseDecPy t
      .ok w.toNat

/-- Survey pass 1: parse every line, record the address it starts at,
update the symbol table at labels, advance the address over instructions
(whose total width must be byte-aligned), and reset it at segment
headers.  A header without a base address fails to unpack
(`segment, addr = line['segment']`). -/
def pass1 (addr : Int) (map : List (String × Int)) :
    List String → Except Err (List (Line × Int) × List (String × Int))
  | [] => .ok ([], map)
  | s :: rest => do
    let l ← subv.parse s
    match l.parsed with
    | .segment _ (some b) => do
      let (q, m) ← pass1 b map rest
      .ok ((l, addr) :: q, m)
    | .segment _ none => .error .unpackError
    | .label name => do
      let (q, m) ← pass1 addr ((name, addr) :: map) rest
      .ok ((l, addr) :: q, m)
    | .instr ps => do
      let ws ← mapME part_width ps
      let width := ws.foldl (fun a w => a + w) 0
      if width % 8 = 0 then do
        let (q, m) ← pass1 (addr + (width / 8 : Nat)) map rest
        .ok ((l, addr) :: q, m)
      else .error (.notByteAligned width)
    | .empty => do
      let (q, m) ← pass1 addr map rest
      .ok ((l, addr) :: q, m)

/-- Survey pass 2, one line: resolve and re-format instruction lines, echo
segment headers raw, drop everything else. -/
def emit (map : List (String × Int)) (l : Line) (addr : Int) :
    Except Err (Option String) :=
  match l.parsed with
  | .instr ps => do
    let ps2 ← mapME (fun p => observe p addr map) ps
    let s ← subv.format { l with parsed := .instr ps2 }
    .ok (some s)
  | .segment _ _ => .ok (some l.raw)
  | _ => .ok none

def pass2 (map : List (String × Int)) : List (Line × Int) → Except Err (List String)
  | [] => .ok []
  | (l, addr) :: rest => do
    match (← emit map l addr) with
    | some s => do
      let outs ← pass2 map rest
      .ok (s :: outs)
    | none => pass2 map rest

/-- `survey.survey`: both passes; the current address starts at `-1`. -/
def survey (lines : List String) : Except Err (List String) := do
  let (q, m) ← pass1 (-1) [] lines
  pass2 m q

end survey

/-! ### Pack (`pack.py`) -/

namespace pack

/-- `pack.byteify`: split a byte-aligned bitfield little-endian into
untagged single-byte parts (`byte[:1]` keeps only the value). -/
def byteify (word : Bits) : Except Err (List IlPart) :=
  if word.2 % 8 = 0 then
    mapME (fun i => do
        let b ← bits.slice word (i * 8 + 7 : Nat) (i * 8 : Nat)
        .ok (⟨.num b.1, []⟩ : IlPart))
      (List.range (word.2 / 8))
  else .error (.notByteAligned word.2)

/-- One step of the `pack.pack` loop: concatenate and byteify instruction
lines, echo everything else (tracking the segment name like the source,
though nothing reads it). -/
def pack1 (seg : Option String) (line : String) : Except Err (Option String × String) := do
  let l ← subv.parse line
  match l.parsed with
  | .instr ps => do
    let fields ← mapME bits.from_part ps
    let total := bits.concat fields
    let bytes ← byteify total
    let s ← subv.format { l with parsed := .instr bytes }
    .ok (seg, s)
  | .segment name _ => .ok (some name, l.raw)
  | _ => .ok (seg, l.raw)

def pack_go (seg : Option String) : List String → Except Err (List String)
  | [] => .ok []
  | l :: rest => do
    let (seg2, out) ← pack1 seg l
    let outs ← pack_go seg2 rest
    .ok (out :: outs)

/-- `pack.pack`: the whole stage. -/
def pack (lines : List String) : Except Err (List String) :=
  pack_go none lines

end pack

/-! ### Concrete programs used by the claims -/

/-- Equality of `Except` results is decidable when both components are. -/
instance {ε α : Type} [DecidableEq ε] [DecidableEq α] : DecidableEq (Except ε α)
  | .ok a, .ok b =>
    if h : a = b then .isTrue (by rw [h]) else .isFalse (by intro hc; cases hc; exact h rfl)
  | .error a, .error b =>
    if h : a = b then .isTrue (by rw [h]) else .isFalse (by intro hc; cases hc; exact h rfl)
  | .ok _, .error _ => .isFalse (by intro hc; cases hc)
  | .error _, .ok _ => .isFalse (by intro hc; cases hc)

/-- The §6 example program after Format: a `lui`, six `opi`/`store` pairs,
then `jal` back to `main`, inside segment `code` based at `0x80000000`. -/
def c1Input : List String := [
  "== code 0x80000000",
  "main:",
  "37/7 05/5 10010/20",
  "13/7 06/5 00/3 00/5 48/12",
  "23/7 00/5 02/3 05/5 06/5 00/7",
  "13/7 06/5 00/3 00/5 65/12",
  "23/7 00/5 02/3 05/5 06/5 00/7",
  "13/7 06/5 00/3 00/5 6c/12",
  "23/7 00/5 02/3 05/5 06/5 00/7",
  "13/7 06/5 00/3 00/5 6c/12",
  "23/7 00/5 02/3 05/5 06/5 00/7",
  "13/7 06/5 00/3 00/5 6f/12",
  "23/7 00/5 02/3 05/5 06/5 00/7",
  "13/7 06/5 00/3 00/5 0a/12",
  "23/7 00/5 02/3 05/5 06/5 00/7",
  "6f/7 00/5 main[19:12]/off8 main[11:11]/off1 main[10:1]/off10 main[20:20]/off1"]

/-- The Survey output on `c1Input` (the survey.py doctest, comments gone). -/
def c1Surveyed : List String := [
  "== code 0x80000000",
  "37/7 05/5 10010/20",
  "13/7 06/5 00/3 00/5 48/12",
  "23/7 00/5 02/3 05/5 06/5 00/7",
  "13/7 06/5 00/3 00/5 65/12",
  "23/7 00/5 02/3 05/5 06/5 00/7",
  "13/7 06/5 00/3 00/5 6c/12",
  "23/7 00/5 02/3 05/5 06/5 00/7",
  "13/7 06/5 00/3 00/5 6c/12",
  "23/7 00/5 02/3 05/5 06/5 00/7",
  "13/7 06/5 00/3 00/5 6f/12",
  "23/7 00/5 02/3 05/5 06/5 00/7",
  "13/7 06/5 00/3 00/5 0a/12",
  "23/7 00/5 02/3 05/5 06/5 00/7",
  "6f/7 00/5 ff/8 01/1 3e6/10 01/1"]

/-- The Pack output on `c1Surveyed` (the pack.py doctest). -/
def c1Packed : List String := [
  "== code 0x80000000",
  "b7 02 01 10",
  "13 03 80 04",
  "23 a0 62 00",
  "13 03 50 06",
  "23 a0 62 00",
  "13 03 c0 06",
  "23 a0 62 00",
  "13 03 c0 06",
  "23 a0 62 00",
  "13 03 f0 06",
  "23 a0 62 00",
  "13 03 a0 00",
  "23 a0 62 00",
  "6f f0 df fc"]

/-! ### Well-formedness for the round-trip claim -/

/-- Characters that are inert in the IL surface syntax: not `/`-tag
separators, not the `#` comment marker, not whitespace or `.`
separators, not stripped by `strip`. -/
def inertChar (c : Char) : Bool :=
  ¬ (c = '/' ∨ c = '#' ∨ c = ' ' ∨ c = '\t' ∨ c = '.' ∨ c = '\n' ∨ c = '\r')

/-- A tag survives printing and re-parsing when all its characters are
inert (it may be empty). -/
def wfTag (t : String) : Bool := t.data.all inertChar

/-- A head survives the round trip: integer heads always; a symbolic head
must be non-empty and inert, must not itself look like a hex literal
(or re-parsing would turn it into an integer), and must not begin with
`=` (or a line starting with it could classify as a segment header). -/
def wfHead : Head → Bool
  | .num _ => true
  | .sym s => ¬ s.data.isEmpty ∧ s.data.all inertChar ∧ ¬ matchesHex s
              ∧ s.data.head? ≠ some '='

def wfPart (p : IlPart) : Bool := wfHead p.head ∧ p.tags.all wfTag

/-- A well-formed instruction line: at least one part, every part well
formed, and the printed text must not end in `:` (which would make the
line re-classify as a label). -/
def wfInstr (ps : List IlPart) : Bool :=
  ¬ ps.isEmpty ∧ ps.all wfPart
  ∧ (joinStrs " " (ps.map subv.format_part)).data.getLast? ≠ some ':'

/-- A comment survives printing when present: it must be non-empty (an
empty comment is simply dropped by the printer) and must not end in
whitespace (which `strip` would eat). -/
def wfComment : Option String → Bool
  | none => true
  | some c =>
    match c.data.getLast? with
    | none => false
    | some ch => ¬ isStripWh ch

/-! ## Theorems

First the supporting lemmas about the bit arithmetic, then one theorem per
claim (with witnesses and counterexamples as required).
-/

theorem bitLenAux_le_iff (fuel : Nat) : ∀ n w : Nat, n ≤ fuel →
    (bits.bitLenAux fuel n ≤ w ↔ n < 2 ^ w) := by
  induction fuel with
  | zero =>
    intro n w hn
    interval_cases n
    simp [bits.bitLenAux, Nat.pos_pow_of_pos, Nat.two_pow_pos]
  | succ fuel ih =>
    intro n w hn
    by_cases h0 : n = 0
    · subst h0
      simp [bits.bitLenAux, Nat.two_pow_pos]
    · rw [bits.bitLenAux, if_neg h0]
      cases w with
      | zero =>
        simp only [Nat.pow_zero, Nat.lt_one_iff]
        omega
      | succ v =>
        have hdiv : n / 2 ≤ fuel := by omega
        rw [Nat.succ_le_succ_iff, ih (n / 2) v hdiv, Nat.pow_succ]
        rw [Nat.div_lt_iff_lt_mul (by omega : 0 < 2)]

theorem bit_length_le_iff (n w : Nat) : bits.bit_length n ≤ w ↔ n < 2 ^ w :=
  bitLenAux_le_iff n n w (Nat.le_refl n)

theorem u_ok_iff (n : Int) (w : Nat) :
    bits.u n w = .ok (n.toNat, w) ↔ 0 ≤ n ∧ n < 2 ^ w := by
  have hcast : ((2 ^ w : Nat) : Int) = 2 ^ w := by push_cast; ring
  unfold bits.u
  constructor
  · intro h
    split at h
    · exact absurd h (by simp)
    · split at h
      · exact absurd h (by simp)
      · rename_i h1 h2
        refine ⟨by omega, ?_⟩
        rw [Nat.not_lt] at h2  -- h2 : ¬ bit_length > w means ≤
        rw [bit_length_le_iff] at h2
        omega
  · intro ⟨h1, h2⟩
    have h2n : n.toNat < 2 ^ w := by omega
    rw [if_neg (by omega), if_neg (by rw [Nat.not_lt, bit_length_le_iff]; exact h2n)]

/-- C8: `bits.u n w` succeeds with `(n, w)` exactly when `0 ≤ n < 2^w`
(minimal bit width at most `w`); below zero it reports the negative value,
at or above `2^w` it reports the value as too large; the four boundary
examples at width 8 behave as stated. -/
theorem claim_C8 :
    (∀ (n : Int) (w : Nat), bits.u n w = .ok (n.toNat, w) ↔ 0 ≤ n ∧ n < 2 ^ w)
    ∧ (∀ (n : Int) (w : Nat), n < 0 → bits.u n w = .error (.negative n))
    ∧ (∀ (n : Int) (w : Nat), (2 ^ w : Int) ≤ n → bits.u n w = .error (.tooLarge n.toNat w))
    ∧ bits.u 0 8 = .ok (0, 8) ∧ bits.u 255 8 = .ok (255, 8)
    ∧ bits.u 256 8 = .error (.tooLarge 256 8)
    ∧ bits.u (-1) 8 = .error (.negative (-1)) := by
  refine ⟨u_ok_iff, ?_, ?_, by decide, by decide, by decide, by decide⟩
  · intro n w h
    unfold bits.u
    rw [if_pos h]
  · intro n w h
    have hcast : ((2 ^ w : Nat) : Int) = 2 ^ w := by push_cast; ring
    have hp : (0:Int) < 2 ^ w := by positivity
    have h2 : ¬ n.toNat < 2 ^ w := by omega
    have h3 : ¬ bits.bit_length n.toNat ≤ w := by rw [bit_length_le_iff]; exact h2
    unfold bits.u
    rw [if_neg (by omega), if_pos (by omega)]

/-- C8 witness: the theorem instantiated at concrete inputs, discharging
the hypotheses of its universally quantified conjuncts. -/
theorem claim_C8_witness :
    bits.u 77 8 = .ok (77, 8) ∧ bits.u (-3) 4 = .error (.negative (-3))
    ∧ bits.u 16 4 = .error (.tooLarge 16 4) := by
  refine ⟨(claim_C8.1 77 8).mpr (by decide), claim_C8.2.1 (-3) 4 (by decide),
          claim_C8.2.2.1 16 4 (by decide)⟩

/-- C7: for widths `w ≥ 1` and `n` in the signed range of `w` bits,
`bits.i n w` succeeds and agrees with `bits.u (n mod 2^w) w` (negatives
becoming `2^w + n`); outside that range it fails. -/
theorem claim_C7 :
    (∀ (w : Nat) (n : Int), 1 ≤ w → -(2 ^ (w - 1)) ≤ n → n ≤ 2 ^ (w - 1) - 1 →
      bits.i n w = bits.u (n % 2 ^ w) w)
    ∧ (∀ (w : Nat) (n : Int), 1 ≤ w → -(2 ^ (w - 1)) ≤ n → n ≤ 2 ^ (w - 1) - 1 →
      ∃ v : Nat, bits.i n w = .ok (v, w))
    ∧ (∀ (w : Nat) (n : Int), n < -(2 ^ (w - 1)) ∨ 2 ^ (w - 1) - 1 < n →
      bits.i n w = .error (.signedRange n w)) := by
  have hpow : ∀ w : Nat, 1 ≤ w → (2 ^ w : Int) = 2 ^ (w - 1) * 2 := by
    intro w hw
    conv => lhs; rw [show w = (w - 1) + 1 by omega]
    rw [pow_succ]
  have main : ∀ (w : Nat) (n : Int), 1 ≤ w → -(2 ^ (w - 1)) ≤ n → n ≤ 2 ^ (w - 1) - 1 →
      bits.i n w = bits.u (n % 2 ^ w) w := by
    intro w n hw hlo hhi
    have h2 := hpow w hw
    unfold bits.i
    rw [if_neg (by omega)]
    by_cases hneg : n < 0
    · rw [if_pos hneg]
      have hmod : n % 2 ^ w = 2 ^ w + n := by
        have h1 : (2 ^ w + n) % 2 ^ w = 2 ^ w + n :=
          Int.emod_eq_of_lt (by omega) (by omega)
        have h2' : (2 ^ w + n) % 2 ^ w = n % 2 ^ w := by rw [add_comm]; simp
        rw [← h2', h1]
      rw [hmod]
    · rw [if_neg hneg]
      rw [Int.emod_eq_of_lt (by omega) (by omega)]
  refine ⟨main, ?_, ?_⟩
  · intro w n hw hlo hhi
    have h2 := hpow w hw
    rw [main w n hw hlo hhi]
    refine ⟨(n % 2 ^ w).toNat, ?_⟩
    rw [u_ok_iff]
    have hp : (0:Int) < 2 ^ w := by positivity
    exact ⟨Int.emod_nonneg n hp.ne', Int.emod_lt_of_pos n hp⟩
  · intro w n h
    unfold bits.i
    rw [if_pos (by omega)]

/-- C7 witness: concrete instantiations at width 8, inside and outside the
signed range. -/
theorem claim_C7_witness :
    bits.i (-4) 8 = bits.u ((-4) % 2 ^ 8) 8
    ∧ (∃ v : Nat, bits.i (-128) 8 = .ok (v, 8))
    ∧ bits.i 128 8 = .error (.signedRange 128 8) := by
  exact ⟨claim_C7.1 8 (-4) (by decide) (by decide) (by decide),
         claim_C7.2.1 8 (-128) (by decide) (by decide) (by decide),
         claim_C7.2.2 8 128 (by decide)⟩

/-- Evaluating `bits.slice` on an in-range request: shift and mask become
division and remainder. -/
theorem slice_eval (v w hi lo : Nat) (h1 : lo ≤ hi) (h2 : hi < w) :
    bits.slice (v, w) hi lo = .ok ((v >>> lo) % 2 ^ (hi - lo + 1), hi - lo + 1) := by
  unfold bits.slice
  rw [if_neg (by push_cast; omega), if_neg (by push_cast; omega)]
  have hsz : ((hi : Int) - (lo : Int) + 1).toNat = hi - lo + 1 := by omega
  have hlo : ((lo : Int)).toNat = lo := by omega
  simp only [hsz, hlo, Nat.one_shiftLeft, Nat.and_pow_two_sub_one_eq_mod]

/-- Concatenating two bitfields: the first occupies the low bits. -/
theorem concat_pair (a b : Bits) :
    bits.concat [a, b] = (a.1 ||| b.1 <<< a.2, a.2 + b.2) := by
  simp [bits.concat]

/-- Disjoint `or` is addition: the low `k` bits come from `a`, the rest
from `b` shifted up. -/
theorem lor_shiftLeft_eq_add (a b k : Nat) (h : a < 2 ^ k) :
    a ||| b <<< k = a + 2 ^ k * b := by
  rw [Nat.shiftLeft_eq, Nat.lor_comm, Nat.mul_comm b (2 ^ k)]
  rw [← Nat.mul_add_lt_is_or h b]
  ring

/-- C2 counterexample: with `concat` laying its first argument in the low
bits (as `bits.py` does), `concat(slice(x, hi, mid+1), slice(x, mid, lo))`
differs from `slice(x, hi, lo)` at `x = (49, 6)`, `hi = 5`, `mid = 2`,
`lo = 0`: the two halves come out swapped, giving `(14, 6) ≠ (49, 6)`. -/
theorem claim_C2_counterexample :
    bits.slice (49, 6) 5 (2 + 1) = .ok (6, 3)
    ∧ bits.slice (49, 6) 2 0 = .ok (1, 3)
    ∧ bits.concat [(6, 3), (1, 3)] = (14, 6)
    ∧ bits.slice (49, 6) 5 0 = .ok (49, 6)
    ∧ ((14, 6) : Bits) ≠ (49, 6) := by
  refine ⟨by decide, by decide, by decide, by decide, by decide⟩

/-- Two adjacent mod-chunks of `y` reassemble into one: the low `k` bits
plus the next `m` bits shifted up give the low `k + m` bits. -/
theorem concat_slices (y k m : Nat) :
    (y % 2 ^ k) ||| ((y >>> k % 2 ^ m) <<< k) = y % 2 ^ (k + m) := by
  have hlt : y % 2 ^ k < 2 ^ k := Nat.mod_lt _ (Nat.two_pow_pos k)
  rw [lor_shiftLeft_eq_add _ _ _ hlt, Nat.shiftRight_eq_div_pow, Nat.pow_add, Nat.mod_mul]

/-- C2 amended: with the argument order matching the low-to-high layout of
`concat`, the slices compose: for `lo ≤ mid < hi < width`,
`concat(slice(x, mid, lo), slice(x, hi, mid+1)) = slice(x, hi, lo)`. -/
theorem claim_C2_amended (v w hi mid lo : Nat)
    (h1 : lo ≤ mid) (h2 : mid < hi) (h3 : hi < w) :
    ∃ a b c : Bits,
      bits.slice (v, w) mid lo = .ok a
      ∧ bits.slice (v, w) hi (mid + 1) = .ok b
      ∧ bits.slice (v, w) hi lo = .ok c
      ∧ bits.concat [a, b] = c := by
  refine ⟨((v >>> lo) % 2 ^ (mid - lo + 1), mid - lo + 1),
          ((v >>> (mid + 1)) % 2 ^ (hi - mid), hi - mid),
          ((v >>> lo) % 2 ^ (hi - lo + 1), hi - lo + 1), ?_, ?_, ?_, ?_⟩
  · exact slice_eval v w mid lo h1 (by omega)
  · have h := slice_eval v w hi (mid + 1) (by omega) h3
    have hm2 : hi - (mid + 1) + 1 = hi - mid := by omega
    rw [hm2] at h
    exact_mod_cast h
  · exact slice_eval v w hi lo (by omega) h3
  · rw [concat_pair]
    have hshift : v >>> (mid + 1) = (v >>> lo) >>> (mid - lo + 1) := by
      rw [← Nat.shiftRight_add]
      congr 1
      omega
    refine Prod.ext ?_ (by simp; omega)
    simp only [hshift]
    have h := concat_slices (v >>> lo) (mid - lo + 1) (hi - mid)
    have hsum : (mid - lo + 1) + (hi - mid) = hi - lo + 1 := by omega
    rw [hsum] at h
    exact h

/-- C2 amended witness: the composition at `x = (0x12345678, 32)`,
`hi = 23`, `mid = 15`, `lo = 8`. -/
theorem claim_C2_amended_witness :
    ∃ a b c : Bits,
      bits.slice (0x12345678, 32) 15 8 = .ok a
      ∧ bits.slice (0x12345678, 32) 23 (15 + 1) = .ok b
      ∧ bits.slice (0x12345678, 32) 23 8 = .ok c
      ∧ bits.concat [a, b] = c :=
  claim_C2_amended 0x12345678 32 23 15 8 (by decide) (by decide) (by decide)

/-- C1: on the §6 example program, Survey renders the `jal` line as
`6f/7 00/5 ff/8 01/1 3e6/10 01/1` (the offset `main - jal_addr = -52`
resolved and scattered), and Pack turns that line into the four bytes
`6f f0 df fc`. -/
theorem claim_C1 :
    survey.survey c1Input = .ok c1Surveyed
    ∧ c1Surveyed.getLast? = some "6f/7 00/5 ff/8 01/1 3e6/10 01/1"
    ∧ pack.pack c1Surveyed = .ok c1Packed
    ∧ c1Packed.getLast? = some "6f f0 df fc" := by
  refine ⟨by decide, by decide, by decide, by decide⟩

/-- C5: Survey's first pass does not set the address to 0 on a baseless
segment header `== name`; the tuple unpacking
`segment, addr = line['segment']` fails on the 1-tuple that
`parse_segment` returns for it, so the stage errors out. -/
theorem claim_C5_bug :
    survey.survey ["== text", "main:", "13/7 06/5 00/3 00/5 48/12"]
      = .error .unpackError := by decide

/-- C6 counterexample: a U-type instruction accepts a symbolic immediate
whose explicit slice is 8 bits wide (not the format's 20), because
`default_slice` only compares the slice width against the tag-declared
width `imm8`; the Format stage emits it unchanged instead of failing. -/
theorem claim_C6_counterexample :
    format.format1 (some "code") "37/lui 5/rd/t0 pos[7:0]/imm8"
      = .ok (some "code", "37/7 05/5 pos[7:0]/imm8") := by decide

/-- C10: the Format stage rewrites an instruction line only inside a
segment named `code`.  With any other current segment (including none at
all, before the first header) an instruction line is emitted as its raw
(stripped) text with no verification; a segment header updates the
current segment to its name; and the stage starts with no segment. -/
theorem claim_C10 :
    (∀ (seg : Option String) (line : String) (l : Line) (ps : List IlPart),
      subv.parse line = .ok l → l.parsed = .instr ps → seg ≠ some "code" →
      format.format1 seg line = .ok (seg, l.raw))
    ∧ (∀ (seg : Option String) (line : String) (l : Line) (name : String) (base : Option Int),
      subv.parse line = .ok l → l.parsed = .segment name base →
      format.format1 seg line = .ok (some name, l.raw))
    ∧ format.format = fun lines => format.format_go none lines := by
  refine ⟨?_, ?_, rfl⟩
  · intro seg line l ps hparse hps hseg
    unfold format.format1
    rw [hparse]
    simp only [Except.bind, bind, hps, if_neg hseg]
  · intro seg line l name base hparse hps
    unfold format.format1
    rw [hparse]
    simp only [Except.bind, bind, hps]

/-- C10 witness: a `lui` line before any segment header and inside a
`data` segment passes through raw; a header switches the segment. -/
theorem claim_C10_witness :
    format.format1 none "37/lui 5/rd/t0 0x123456/imm20"
      = .ok (none, "37/lui 5/rd/t0 0x123456/imm20")
    ∧ format.format1 (some "data") "37/lui 5/rd/t0 0x123456/imm20"
      = .ok (some "data", "37/lui 5/rd/t0 0x123456/imm20")
    ∧ format.format1 (some "code") "== data 0x10"
      = .ok (some "data", "== data 0x10") := by
  refine ⟨claim_C10.1 none _
            ⟨"37/lui 5/rd/t0 0x123456/imm20", "37/lui 5/rd/t0 0x123456/imm20", none,
             .instr [⟨.num 0x37, ["lui"]⟩, ⟨.num 5, ["rd", "t0"]⟩, ⟨.num 0x123456, ["imm20"]⟩]⟩
            [⟨.num 0x37, ["lui"]⟩, ⟨.num 5, ["rd", "t0"]⟩, ⟨.num 0x123456, ["imm20"]⟩]
            (by decide) (by decide) (by decide),
          claim_C10.1 (some "data") _
            ⟨"37/lui 5/rd/t0 0x123456/imm20", "37/lui 5/rd/t0 0x123456/imm20", none,
             .instr [⟨.num 0x37, ["lui"]⟩, ⟨.num 5, ["rd", "t0"]⟩, ⟨.num 0x123456, ["imm20"]⟩]⟩
            [⟨.num 0x37, ["lui"]⟩, ⟨.num 5, ["rd", "t0"]⟩, ⟨.num 0x123456, ["imm20"]⟩]
            (by decide) (by decide) (by decide),
          claim_C10.2.1 (some "code") _
            ⟨"== data 0x10", "== data 0x10", none, .segment "data" (some 16)⟩
            "data" (some 16) (by decide) (by decide)⟩

/-- When `subv.format` succeeds on an instruction line with a non-empty
comment, its output is the formatted parts followed by the re-attached
comment. -/
theorem format_ok_suffix (l : Line) (ps : List IlPart) (c : String) (out : String)
    (hps : l.parsed = .instr ps) (hc : l.comment = some c) (hne : c ≠ "")
    (h : subv.format l = .ok out) : ∃ s, out = s ++ (" # " ++ c) := by
  refine ⟨joinStrs " " (ps.map subv.format_part), ?_⟩
  have hfmt : subv.format l
      = .ok (joinStrs " " (ps.map subv.format_part) ++ " # " ++ c) := by
    unfold subv.format
    rw [hps, hc]
    dsimp only
    rw [if_neg hne]
  rw [hfmt] at h
  cases h
  rw [String.append_assoc]

/-- C9 counterexample: a comment-only line is parsed with its comment, but
Survey's output contains no line for it at all (pass 2 yields only
instruction and segment lines). -/
theorem claim_C9_counterexample :
    (subv.parse "# hello").map Line.comment = .ok (some " hello")
    ∧ survey.survey ["== code 0x0", "# hello"] = .ok ["== code 0x0"] := by
  refine ⟨by decide, by decide⟩

/-- C9 amended: comments are preserved on instruction lines: whenever
Format (inside `code`), Survey's resolution pass, or Pack emits an
instruction line whose parse carried a non-empty comment, the emitted
text ends with ` # <comment>`.  Survey, however, drops empty
(comment-only) lines entirely. -/
theorem claim_C9_amended :
    (∀ (map : List (String × Int)) (l : Line) (addr : Int) (ps : List IlPart) (c out : String),
      l.parsed = .instr ps → l.comment = some c → c ≠ "" →
      survey.emit map l addr = .ok (some out) → ∃ s, out = s ++ (" # " ++ c))
    ∧ (∀ (line : String) (l : Line) (ps : List IlPart) (c : String)
         (seg2 : Option String) (out : String),
      subv.parse line = .ok l → l.parsed = .instr ps → l.comment = some c → c ≠ "" →
      format.format1 (some "code") line = .ok (seg2, out) → ∃ s, out = s ++ (" # " ++ c))
    ∧ (∀ (seg : Option String) (line : String) (l : Line) (ps : List IlPart) (c : String)
         (seg2 : Option String) (out : String),
      subv.parse line = .ok l → l.parsed = .instr ps → l.comment = some c → c ≠ "" →
      pack.pack1 seg line = .ok (seg2, out) → ∃ s, out = s ++ (" # " ++ c))
    ∧ (∀ (map : List (String × Int)) (l : Line) (addr : Int),
      l.parsed = .empty → survey.emit map l addr = .ok none) := by
  refine ⟨?_, ?_, ?_, ?_⟩
  · intro map l addr ps c out hps hc hne h
    unfold survey.emit at h
    rw [hps] at h
    simp only [Except.bind, bind] at h
    cases hm : mapME (fun p => survey.observe p addr map) ps with
    | error e => rw [hm] at h; cases h
    | ok ps2 =>
      rw [hm] at h
      dsimp only at h
      cases hf : subv.format { l with parsed := .instr ps2 } with
      | error e => rw [hf] at h; cases h
      | ok s =>
        rw [hf] at h
        dsimp only at h
        cases h
        exact format_ok_suffix { l with parsed := .instr ps2 } ps2 c _ rfl hc hne hf
  · intro line l ps c seg2 out hparse hps hc hne h
    unfold format.format1 at h
    rw [hparse] at h
    simp only [Except.bind, bind, hps, reduceIte] at h
    cases hm : format.format_instr ps with
    | error e => rw [hm] at h; cases h
    | ok fs =>
      rw [hm] at h
      dsimp only at h
      cases hf : subv.format { l with parsed := .instr (fs.map format.renderField) } with
      | error e => rw [hf] at h; cases h
      | ok s =>
        rw [hf] at h
        dsimp only at h
        cases h
        exact format_ok_suffix { l with parsed := .instr (fs.map format.renderField) }
          (fs.map format.renderField) c _ rfl hc hne hf
  · intro seg line l ps c seg2 out hparse hps hc hne h
    unfold pack.pack1 at h
    rw [hparse] at h
    simp only [Except.bind, bind, hps] at h
    cases hm : mapME bits.from_part ps with
    | error e => rw [hm] at h; cases h
    | ok fields =>
      rw [hm] at h
      dsimp only at h
      cases hb : pack.byteify (bits.concat fields) with
      | error e => rw [hb] at h; cases h
      | ok bytes =>
        rw [hb] at h
        dsimp only at h
        cases hf : subv.format { l with parsed := .instr bytes } with
        | error e => rw [hf] at h; cases h
        | ok s =>
          rw [hf] at h
          dsimp only at h
          cases h
          exact format_ok_suffix { l with parsed := .instr bytes } bytes c _ rfl hc hne hf
  · intro map l addr hps
    unfold survey.emit
    rw [hps]

/-- C9 amended witness: each stage's emission on a concrete commented
`opi` line (the re-parsed comment keeps its leading space, so re-attaching
produces a doubled space in the Format and Pack outputs). -/
theorem claim_C9_amended_witness :
    (∃ s, "13/7 06/5 00/3 00/5 48/12 # store H" = s ++ (" # " ++ "store H"))
    ∧ (∃ s, "13/7 06/5 00/3 00/5 48/12 #  store H" = s ++ (" # " ++ " store H"))
    ∧ (∃ s, "13 03 80 04 #  store H" = s ++ (" # " ++ " store H")) := by
  refine ⟨?_, ?_, ?_⟩
  · exact claim_C9_amended.1 [] ⟨"", "", some "store H",
      .instr [⟨.num 0x13, ["7"]⟩, ⟨.num 6, ["5"]⟩, ⟨.num 0, ["3"]⟩, ⟨.num 0, ["5"]⟩,
              ⟨.num 0x48, ["12"]⟩]⟩
      0 _ "store H" "13/7 06/5 00/3 00/5 48/12 # store H" rfl rfl (by decide) (by decide)
  · exact claim_C9_amended.2.1 "13/opi 0/subop/add 6/rd/t1 0/rs/x0 48/imm12 # store H"
      ⟨"13/opi 0/subop/add 6/rd/t1 0/rs/x0 48/imm12 # store H",
       "13/opi 0/subop/add 6/rd/t1 0/rs/x0 48/imm12 ", some " store H",
       .instr [⟨.num 0x13, ["opi"]⟩, ⟨.num 0, ["subop", "add"]⟩, ⟨.num 6, ["rd", "t1"]⟩,
               ⟨.num 0, ["rs", "x0"]⟩, ⟨.num 0x48, ["imm12"]⟩]⟩
      _ " store H" (some "code") "13/7 06/5 00/3 00/5 48/12 #  store H"
      (by decide) rfl rfl (by decide) (by decide)
  · exact claim_C9_amended.2.2.1 none "13/7 06/5 00/3 00/5 48/12 # store H"
      ⟨"13/7 06/5 00/3 00/5 48/12 # store H", "13/7 06/5 00/3 00/5 48/12 ", some " store H",
       .instr [⟨.num 0x13, ["7"]⟩, ⟨.num 6, ["5"]⟩, ⟨.num 0, ["3"]⟩, ⟨.num 0, ["5"]⟩,
               ⟨.num 0x48, ["12"]⟩]⟩
      _ " store H" none "13 03 80 04 #  store H" (by decide) rfl rfl (by decide) (by decide)

/-! Decimal/hex digit strings round-trip through printing and parsing. -/

theorem hexVal_digitChar (d : Nat) (h : d < 16) : hexVal (Nat.digitChar d) = d := by
  interval_cases d <;> decide

theorem digitChar_isDec (d : Nat) (h : d < 10) : isDecDigit (Nat.digitChar d) = true := by
  interval_cases d <;> decide

theorem digitChar_isHex (d : Nat) (h : d < 16) : isHexDigit (Nat.digitChar d) = true := by
  interval_cases d <;> decide

theorem digitsRevAux_mem_lt (b : Nat) (hb : 2 ≤ b) (fuel : Nat) :
    ∀ n d, d ∈ digitsRevAux b fuel n → d < b := by
  induction fuel with
  | zero => intro n d hd; simp [digitsRevAux] at hd
  | succ fuel ih =>
    intro n d hd
    rw [digitsRevAux] at hd
    split at hd
    · rename_i hn
      simp at hd
      omega
    · rename_i hn
      rcases List.mem_cons.mp hd with h1 | h2
      · subst h1
        exact Nat.mod_lt n (by omega)
      · exact ih (n / b) d h2

theorem digitsRevAux_ne_nil (b fuel n : Nat) (h : 0 < fuel) :
    digitsRevAux b fuel n ≠ [] := by
  cases fuel with
  | zero => omega
  | succ f =>
    rw [digitsRevAux]
    split <;> simp

theorem foldDigits_append_singleton (b : Nat) (l : List Char) (c : Char) :
    foldDigits b (l ++ [c]) = foldDigits b l * b + hexVal c := by
  unfold foldDigits
  rw [List.foldl_append]
  rfl

theorem foldDigits_digitsRevAux (b : Nat) (hb : 2 ≤ b) (hb16 : b ≤ 16) (fuel : Nat) :
    ∀ n, n < fuel →
      foldDigits b (((digitsRevAux b fuel n).map Nat.digitChar).reverse) = n := by
  induction fuel with
  | zero => omega
  | succ fuel ih =>
    intro n hn
    rw [digitsRevAux]
    split
    · rename_i hnb
      simp only [List.map_cons, List.map_nil, List.reverse_cons, List.reverse_nil,
                 List.nil_append]
      show foldDigits b ([] ++ [Nat.digitChar n]) = n
      rw [foldDigits_append_singleton, hexVal_digitChar n (by omega)]
      simp [foldDigits]
    · rename_i hnb
      have hdiv : n / b < fuel := by
        have h1 : n / b < n := Nat.div_lt_self (by omega) (by omega)
        omega
      simp only [List.map_cons, List.reverse_cons]
      rw [foldDigits_append_singleton, ih (n / b) hdiv,
          hexVal_digitChar (n % b) (by have := Nat.mod_lt n (show 0 < b by omega); omega)]
      rw [Nat.mul_comm (n / b) b]
      exact Nat.div_add_mod n b

theorem foldDigits_natDigits (b : Nat) (hb : 2 ≤ b) (hb16 : b ≤ 16) (n : Nat) :
    foldDigits b (natDigits b n) = n :=
  foldDigits_digitsRevAux b hb hb16 (n + 1) n (Nat.lt_succ_self n)

theorem natDigits_mem_class (b : Nat) (hb : 2 ≤ b) (n : Nat) :
    ∀ c ∈ natDigits b n, ∃ d, d < b ∧ c = Nat.digitChar d := by
  intro c hc
  unfold natDigits at hc
  rw [List.mem_reverse] at hc
  rcases List.mem_map.mp hc with ⟨d, hd, hdc⟩
  exact ⟨d, digitsRevAux_mem_lt b hb (n + 1) n d hd, hdc.symm⟩

theorem decRepr_all_dec (n : Nat) : ∀ c ∈ (decRepr n).data, isDecDigit c = true := by
  intro c hc
  rcases natDigits_mem_class 10 (by omega) n c hc with ⟨d, hd, hdc⟩
  subst hdc
  exact digitChar_isDec d hd

theorem decRepr_ne_nil (n : Nat) : (decRepr n).data ≠ [] := by
  unfold decRepr natDigits
  simp only [String.mk]
  intro h
  rw [List.reverse_eq_nil_iff, List.map_eq_nil_iff] at h
  exact digitsRevAux_ne_nil 10 (n + 1) n (by omega) h

theorem foldDigits_decRepr (n : Nat) : foldDigits 10 (decRepr n).data = n :=
  foldDigits_natDigits 10 (by omega) (by omega) n

/-! Behaviour of the regex run helpers on well-formed inputs. -/

theorem takeNotBr_append (l1 l2 : List Char) (h : ∀ c ∈ l1, c ≠ '[') :
    takeNotBr (l1 ++ l2) = l1 ++ takeNotBr l2 := by
  induction l1 with
  | nil => simp
  | cons c rest ih =>
    simp only [List.cons_append, takeNotBr, if_neg (h c (by simp))]
    exact congrArg (c :: ·) (ih (fun d hd => h d (by simp [hd])))

theorem dropNotBr_append (l1 l2 : List Char) (h : ∀ c ∈ l1, c ≠ '[') :
    dropNotBr (l1 ++ l2) = dropNotBr l2 := by
  induction l1 with
  | nil => simp
  | cons c rest ih =>
    simp only [List.cons_append, dropNotBr, if_neg (h c (by simp))]
    exact ih (fun d hd => h d (by simp [hd]))

theorem takeDigits_append (l1 l2 : List Char) (h : ∀ c ∈ l1, isDecDigit c = true) :
    takeDigits (l1 ++ l2) = l1 ++ takeDigits l2 := by
  induction l1 with
  | nil => simp
  | cons c rest ih =>
    simp only [List.cons_append, takeDigits, if_pos (h c (by simp))]
    exact congrArg (c :: ·) (ih (fun d hd => h d (by simp [hd])))

theorem dropDigits_append (l1 l2 : List Char) (h : ∀ c ∈ l1, isDecDigit c = true) :
    dropDigits (l1 ++ l2) = dropDigits l2 := by
  induction l1 with
  | nil => simp
  | cons c rest ih =>
    simp only [List.cons_append, dropDigits, if_pos (h c (by simp))]
    exact ih (fun d hd => h d (by simp [hd]))

/-- `matchSliceRe` on a well-formed `label[h:l]` string recovers the label
and the decimal bounds. -/
theorem matchSliceRe_build (label : String) (h l : Nat)
    (hne : label.data ≠ []) (hnb : ∀ c ∈ label.data, c ≠ '[') :
    subv.matchSliceRe (label ++ "[" ++ decRepr h ++ ":" ++ decRepr l ++ "]")
      = .ok (label, some (h, l)) := by
  have hdata : (label ++ "[" ++ decRepr h ++ ":" ++ decRepr l ++ "]").data
      = label.data ++ ('[' :: ((decRepr h).data ++ ':' :: ((decRepr l).data ++ [']']))) := by
    simp [String.data_append]
  unfold subv.matchSliceRe
  rw [hdata, takeNotBr_append _ _ hnb, dropNotBr_append _ _ hnb]
  rw [show takeNotBr ('[' :: ((decRepr h).data ++ ':' :: ((decRepr l).data ++ [']']))) = []
      from rfl]
  rw [show dropNotBr ('[' :: ((decRepr h).data ++ ':' :: ((decRepr l).data ++ [']'])))
        = '[' :: ((decRepr h).data ++ ':' :: ((decRepr l).data ++ [']'])) from rfl]
  simp only [List.append_nil]
  rw [if_neg hne]
  rw [takeDigits_append _ _ (decRepr_all_dec h), dropDigits_append _ _ (decRepr_all_dec h)]
  rw [show takeDigits (':' :: ((decRepr l).data ++ [']'])) = [] from rfl,
      show dropDigits (':' :: ((decRepr l).data ++ [']'])) = ':' :: ((decRepr l).data ++ [']'])
        from rfl]
  simp only [List.append_nil]
  rw [if_neg (decRepr_ne_nil h)]
  rw [takeDigits_append _ _ (decRepr_all_dec l), dropDigits_append _ _ (decRepr_all_dec l)]
  rw [show takeDigits [']'] = [] from rfl, show dropDigits [']'] = [']'] from rfl]
  simp only [List.append_nil]
  rw [if_neg (decRepr_ne_nil l)]
  rw [show String.mk label.data = label from rfl]
  rw [foldDigits_decRepr h, foldDigits_decRepr l]

/-- `matchSliceRe` on a bare label (no `[`): the label alone, no bounds. -/
theorem matchSliceRe_bare (label : String)
    (hne : label.data ≠ []) (hnb : ∀ c ∈ label.data, c ≠ '[') :
    subv.matchSliceRe label = .ok (label, none) := by
  unfold subv.matchSliceRe
  rw [show label.data = label.data ++ [] by simp]
  rw [takeNotBr_append _ _ hnb, dropNotBr_append _ _ hnb]
  simp only [takeNotBr, dropNotBr, List.append_nil]
  rw [if_neg hne]

/-- `matchFieldRe` on `imm<digits>` or `off<digits>`. -/
theorem matchFieldRe_build (mode : String) (size : Nat)
    (hm : mode = "imm" ∨ mode = "off") :
    subv.matchFieldRe (mode ++ decRepr size) = .ok (mode, size) := by
  have hall : ((decRepr size).data.all isDecDigit) = true :=
    List.all_eq_true.mpr (fun c hc => decRepr_all_dec size c hc)
  have hemp : ((decRepr size).data.isEmpty) = false := by
    rw [List.isEmpty_eq_false_iff_exists_mem]
    rcases List.exists_mem_of_ne_nil _ (decRepr_ne_nil size) with ⟨c, hc⟩
    exact ⟨c, hc⟩
  rcases hm with hm | hm <;> subst hm
  · have hdata : ("imm" ++ decRepr size).data = 'i' :: 'm' :: 'm' :: (decRepr size).data := by
      simp [String.data_append]
    unfold subv.matchFieldRe
    rw [hdata]
    show (if ((decRepr size).data.isEmpty = true ∨ ¬ (decRepr size).data.all isDecDigit = true)
          then (Except.error Err.refParse : Except Err (String × Nat))
          else Except.ok ("imm", foldDigits 10 (decRepr size).data))
        = Except.ok ("imm", size)
    rw [if_neg (by simp [hall, hemp]), foldDigits_decRepr size]
  · have hdata : ("off" ++ decRepr size).data = 'o' :: 'f' :: 'f' :: (decRepr size).data := by
      simp [String.data_append]
    unfold subv.matchFieldRe
    rw [hdata]
    show (if ((decRepr size).data.isEmpty = true ∨ ¬ (decRepr size).data.all isDecDigit = true)
          then (Except.error Err.refParse : Except Err (String × Nat))
          else Except.ok ("off", foldDigits 10 (decRepr size).data))
        = Except.ok ("off", size)
    rw [if_neg (by simp [hall, hemp]), foldDigits_decRepr size]

/-- `parse_reference` on a constructed `label[h:l]` part. -/
theorem parse_reference_build (label : String) (h l size : Nat)
    (tags : List String) (mode : String)
    (hne : label.data ≠ []) (hnb : ∀ c ∈ label.data, c ≠ '[')
    (hm : mode = "imm" ∨ mode = "off") :
    subv.parse_reference
      ⟨.sym (label ++ "[" ++ decRepr h ++ ":" ++ decRepr l ++ "]"),
       (mode ++ decRepr size) :: tags⟩
      = .ok ⟨label, mode, size, tags, some (h, l)⟩ := by
  unfold subv.parse_reference
  dsimp only
  rw [matchSliceRe_build label h l hne hnb]
  dsimp only [Except.bind, bind]
  rw [matchFieldRe_build mode size hm]

/-- `parse_reference` on a bare-label part. -/
theorem parse_reference_bare (label : String) (size : Nat)
    (tags : List String) (mode : String)
    (hne : label.data ≠ []) (hnb : ∀ c ∈ label.data, c ≠ '[')
    (hm : mode = "imm" ∨ mode = "off") :
    subv.parse_reference ⟨.sym label, (mode ++ decRepr size) :: tags⟩
      = .ok ⟨label, mode, size, tags, none⟩ := by
  unfold subv.parse_reference
  dsimp only
  rw [matchSliceRe_bare label hne hnb]
  dsimp only [Except.bind, bind]
  rw [matchFieldRe_build mode size hm]

/-- C6 amended: `default_slice` checks the slice width against the width
declared in the reference's own tag, not against the instruction format's
immediate width.  With an explicit slice `[h:l]` and tag `mode<size>` it
succeeds exactly when `size = h - l + 1` (the format's default range
`[dh:dl]` is ignored); for a bare label the default range is filled in and
`size = dh - dl + 1` is required instead. -/
theorem claim_C6_amended :
    ∀ (label : String) (h l dh dl size : Nat) (tags : List String) (mode : String),
      label.data ≠ [] → (∀ c ∈ label.data, c ≠ '[') → (mode = "imm" ∨ mode = "off") →
      (((size : Int) = (h : Int) - (l : Int) + 1 →
        format.default_slice
          ⟨.sym (label ++ "[" ++ decRepr h ++ ":" ++ decRepr l ++ "]"),
           (mode ++ decRepr size) :: tags⟩ dh dl
          = .ok ⟨.sym (label ++ "[" ++ decRepr h ++ ":" ++ decRepr l ++ "]"),
                 (mode ++ decRepr size) :: tags⟩)
      ∧ ((size : Int) ≠ (h : Int) - (l : Int) + 1 →
        format.default_slice
          ⟨.sym (label ++ "[" ++ decRepr h ++ ":" ++ decRepr l ++ "]"),
           (mode ++ decRepr size) :: tags⟩ dh dl
          = .error (.assertWidth size))
      ∧ ((size : Int) = (dh : Int) - (dl : Int) + 1 →
        format.default_slice ⟨.sym label, (mode ++ decRepr size) :: tags⟩ dh dl
          = .ok ⟨.sym (label ++ "[" ++ decRepr dh ++ ":" ++ decRepr dl ++ "]"),
                 (mode ++ decRepr size) :: tags⟩)
      ∧ ((size : Int) ≠ (dh : Int) - (dl : Int) + 1 →
        format.default_slice ⟨.sym label, (mode ++ decRepr size) :: tags⟩ dh dl
          = .error (.assertWidth size))) := by
  intro label h l dh dl size tags mode hne hnb hm
  have hbuild := parse_reference_build label h l size tags mode hne hnb hm
  have hbare := parse_reference_bare label size tags mode hne hnb hm
  refine ⟨?_, ?_, ?_, ?_⟩
  · intro heq
    unfold format.default_slice
    rw [hbuild]
    dsimp only [Except.bind, bind]
    rw [if_pos heq]
  · intro hneq
    unfold format.default_slice
    rw [hbuild]
    dsimp only [Except.bind, bind]
    rw [if_neg hneq]
  · intro heq
    unfold format.default_slice
    rw [hbare]
    dsimp only [Except.bind, bind]
    rw [if_pos heq]
  · intro hneq
    unfold format.default_slice
    rw [hbare]
    dsimp only [Except.bind, bind]
    rw [if_neg hneq]

/-- C6 amended witness: `pos[7:0]/imm8` passes the check (8 bits, tag
`imm8`) although a U-type requires 20; with tag `imm20` the same slice is
rejected; a bare `pos/imm20` picks up the U default `[31:12]`. -/
theorem claim_C6_amended_witness :
    format.default_slice ⟨.sym ("pos" ++ "[" ++ decRepr 7 ++ ":" ++ decRepr 0 ++ "]"),
        ("imm" ++ decRepr 8) :: []⟩ 31 12
      = .ok ⟨.sym ("pos" ++ "[" ++ decRepr 7 ++ ":" ++ decRepr 0 ++ "]"),
             ("imm" ++ decRepr 8) :: []⟩
    ∧ format.default_slice ⟨.sym ("pos" ++ "[" ++ decRepr 7 ++ ":" ++ decRepr 0 ++ "]"),
        ("imm" ++ decRepr 20) :: []⟩ 31 12
      = .error (.assertWidth 20)
    ∧ format.default_slice ⟨.sym "pos", ("imm" ++ decRepr 20) :: []⟩ 31 12
      = .ok ⟨.sym ("pos" ++ "[" ++ decRepr 31 ++ ":" ++ decRepr 12 ++ "]"),
             ("imm" ++ decRepr 20) :: []⟩ := by
  refine ⟨?_, ?_, ?_⟩
  · exact (claim_C6_amended "pos" 7 0 31 12 8 [] "imm" (by decide) (by decide)
      (Or.inl rfl)).1 (by decide)
  · exact (claim_C6_amended "pos" 7 0 31 12 20 [] "imm" (by decide) (by decide)
      (Or.inl rfl)).2.1 (by decide)
  · exact (claim_C6_amended "pos" 7 0 31 12 20 [] "imm" (by decide) (by decide)
      (Or.inl rfl)).2.2.1 (by decide)

/-! Inversion helpers for `Except` computations. -/

theorem bind_ok_ex {α β : Type} {x : Except Err α} {f : α → Except Err β} {b : β}
    (h : (x >>= f) = .ok b) : ∃ a, x = .ok a ∧ f a = .ok b := by
  cases x with
  | error e => exact absurd h (by simp [Bind.bind, Except.bind])
  | ok a => exact ⟨a, rfl, by simpa [Bind.bind, Except.bind] using h⟩

theorem u_ok_inv {n : Int} {w : Nat} {b : Bits} (h : bits.u n w = .ok b) :
    b = (n.toNat, w) ∧ n.toNat < 2 ^ w := by
  unfold bits.u at h
  split at h
  · cases h
  · split at h
    · cases h
    · rename_i h1 h2
      cases h
      refine ⟨rfl, ?_⟩
      rw [Nat.not_lt] at h2
      rw [← bit_length_le_iff]
      exact h2

theorem asInt_ok {hd : Head} {nv : Int} (h : format.asInt hd = .ok nv) :
    hd = .num nv := by
  cases hd with
  | num n => cases h; rfl
  | sym s => cases h

theorem untag_none_ok {p : IlPart} {hd : Head} (h : subv.untag p none = .ok hd) :
    hd = p.head := by
  unfold subv.untag at h
  cases h
  rfl

/-- `pack_u` success: the emitted list starts with the 7-bit opcode field
taken from the first part's integer head. -/
theorem pack_u_head (ps : List IlPart) (fs : List PField)
    (h : format.pack_u ps = .ok fs) :
    ∃ (nv : Int) (rest : List PField) (op : IlPart) (ps' : List IlPart),
      ps = op :: ps' ∧ op.head = .num nv
      ∧ fs = .bits (nv.toNat, 7) :: rest ∧ nv.toNat < 2 ^ 7 := by
  unfold format.pack_u at h
  rcases ps with _ | ⟨op, _ | ⟨rd, _ | ⟨imm, _ | ⟨x, xs⟩⟩⟩⟩
  · cases h
  · cases h
  · cases h
  · obtain ⟨hd, hhd, h⟩ := bind_ok_ex h
    obtain ⟨nv, hnv, h⟩ := bind_ok_ex h
    obtain ⟨opb, hopb, h⟩ := bind_ok_ex h
    obtain ⟨_, _, h⟩ := bind_ok_ex h
    obtain ⟨_, _, h⟩ := bind_ok_ex h
    obtain ⟨rdb, _, h⟩ := bind_ok_ex h
    have hhd2 := untag_none_ok hhd
    subst hhd2
    have hhead := asInt_ok hnv
    obtain ⟨hopb_eq, hlt⟩ := u_ok_inv hopb
    subst hopb_eq
    split at h
    · obtain ⟨immf, _, h⟩ := bind_ok_ex h
      cases h
      exact ⟨nv, _, op, _, rfl, hhead, rfl, hlt⟩
    · obtain ⟨_, _, h⟩ := bind_ok_ex h
      obtain ⟨_, _, h⟩ := bind_ok_ex h
      obtain ⟨immb, _, h⟩ := bind_ok_ex h
      cases h
      exact ⟨nv, _, op, _, rfl, hhead, rfl, hlt⟩
  · cases h

/-- `pack_i` success: same head shape. -/
theorem pack_i_head (ps : List IlPart) (fs : List PField)
    (h : format.pack_i ps = .ok fs) :
    ∃ (nv : Int) (rest : List PField) (op : IlPart) (ps' : List IlPart),
      ps = op :: ps' ∧ op.head = .num nv
      ∧ fs = .bits (nv.toNat, 7) :: rest ∧ nv.toNat < 2 ^ 7 := by
  unfold format.pack_i at h
  rcases ps with _ | ⟨op, _ | ⟨sub, _ | ⟨rd, _ | ⟨rs, _ | ⟨imm, _ | ⟨x, xs⟩⟩⟩⟩⟩⟩
  · cases h
  · cases h
  · cases h
  · cases h
  · cases h
  · obtain ⟨hd, hhd, h⟩ := bind_ok_ex h
    obtain ⟨nv, hnv, h⟩ := bind_ok_ex h
    obtain ⟨opb, hopb, h⟩ := bind_ok_ex h
    obtain ⟨_, _, h⟩ := bind_ok_ex h
    obtain ⟨_, _, h⟩ := bind_ok_ex h
    obtain ⟨_, _, h⟩ := bind_ok_ex h
    obtain ⟨_, _, h⟩ := bind_ok_ex h
    obtain ⟨_, _, h⟩ := bind_ok_ex h
    obtain ⟨_, _, h⟩ := bind_ok_ex h
    obtain ⟨_, _, h⟩ := bind_ok_ex h
    obtain ⟨_, _, h⟩ := bind_ok_ex h
    obtain ⟨_, _, h⟩ := bind_ok_ex h
    have hhd2 := untag_none_ok hhd
    subst hhd2
    have hhead := asInt_ok hnv
    obtain ⟨hopb_eq, hlt⟩ := u_ok_inv hopb
    subst hopb_eq
    split at h
    · obtain ⟨immf, _, h⟩ := bind_ok_ex h
      cases h
      exact ⟨nv, _, op, _, rfl, hhead, rfl, hlt⟩
    · obtain ⟨_, _, h⟩ := bind_ok_ex h
      obtain ⟨_, _, h⟩ := bind_ok_ex h
      obtain ⟨immb, _, h⟩ := bind_ok_ex h
      cases h
      exact ⟨nv, _, op, _, rfl, hhead, rfl, hlt⟩
  · cases h

/-- `pack_s` success: same head shape. -/
theorem pack_s_head (ps : List IlPart) (fs : List PField)
    (h : format.pack_s ps = .ok fs) :
    ∃ (nv : Int) (rest : List PField) (op : IlPart) (ps' : List IlPart),
      ps = op :: ps' ∧ op.head = .num nv
      ∧ fs = .bits (nv.toNat, 7) :: rest ∧ nv.toNat < 2 ^ 7 := by
  unfold format.pack_s at h
  rcases ps with _ | ⟨op, _ | ⟨sub, _ | ⟨rs1, _ | ⟨rs2, _ | ⟨imm, _ | ⟨x, xs⟩⟩⟩⟩⟩⟩
  · cases h
  · cases h
  · cases h
  · cases h
  · cases h
  · obtain ⟨hd, hhd, h⟩ := bind_ok_ex h
    obtain ⟨nv, hnv, h⟩ := bind_ok_ex h
    obtain ⟨opb, hopb, h⟩ := bind_ok_ex h
    obtain ⟨_, _, h⟩ := bind_ok_ex h
    obtain ⟨_, _, h⟩ := bind_ok_ex h
    obtain ⟨_, _, h⟩ := bind_ok_ex h
    obtain ⟨_, _, h⟩ := bind_ok_ex h
    obtain ⟨_, _, h⟩ := bind_ok_ex h
    obtain ⟨_, _, h⟩ := bind_ok_ex h
    obtain ⟨_, _, h⟩ := bind_ok_ex h
    obtain ⟨_, _, h⟩ := bind_ok_ex h
    obtain ⟨_, _, h⟩ := bind_ok_ex h
    obtain ⟨immv, _, h⟩ := bind_ok_ex h
    obtain ⟨imm_lo, _, h⟩ := bind_ok_ex h
    obtain ⟨imm_hi, _, h⟩ := bind_ok_ex h
    have hhd2 := untag_none_ok hhd
    subst hhd2
    have hhead := asInt_ok hnv
    obtain ⟨hopb_eq, hlt⟩ := u_ok_inv hopb
    subst hopb_eq
    cases h
    exact ⟨nv, _, op, _, rfl, hhead, rfl, hlt⟩
  · cases h

/-- `pack_j` success: same head shape. -/
theorem pack_j_head (ps : List IlPart) (fs : List PField)
    (h : format.pack_j ps = .ok fs) :
    ∃ (nv : Int) (rest : List PField) (op : IlPart) (ps' : List IlPart),
      ps = op :: ps' ∧ op.head = .num nv
      ∧ fs = .bits (nv.toNat, 7) :: rest ∧ nv.toNat < 2 ^ 7 := by
  unfold format.pack_j at h
  rcases ps with _ | ⟨op, _ | ⟨rd, _ | ⟨imm, _ | ⟨x, xs⟩⟩⟩⟩
  · cases h
  · cases h
  · cases h
  · obtain ⟨hd, hhd, h⟩ := bind_ok_ex h
    obtain ⟨nv, hnv, h⟩ := bind_ok_ex h
    obtain ⟨opb, hopb, h⟩ := bind_ok_ex h
    obtain ⟨_, _, h⟩ := bind_ok_ex h
    obtain ⟨_, _, h⟩ := bind_ok_ex h
    obtain ⟨_, _, h⟩ := bind_ok_ex h
    obtain ⟨immv, _, h⟩ := bind_ok_ex h
    obtain ⟨imm_lo, _, h⟩ := bind_ok_ex h
    obtain ⟨imm_11, _, h⟩ := bind_ok_ex h
    obtain ⟨imm_hi, _, h⟩ := bind_ok_ex h
    obtain ⟨imm_20, _, h⟩ := bind_ok_ex h
    have hhd2 := untag_none_ok hhd
    subst hhd2
    have hhead := asInt_ok hnv
    obtain ⟨hopb_eq, hlt⟩ := u_ok_inv hopb
    subst hopb_eq
    cases h
    exact ⟨nv, _, op, _, rfl, hhead, rfl, hlt⟩
  · cases h

/-- `pack_b` success: same head shape. -/
theorem pack_b_head (ps : List IlPart) (fs : List PField)
    (h : format.pack_b ps = .ok fs) :
    ∃ (nv : Int) (rest : List PField) (op : IlPart) (ps' : List IlPart),
      ps = op :: ps' ∧ op.head = .num nv
      ∧ fs = .bits (nv.toNat, 7) :: rest ∧ nv.toNat < 2 ^ 7 := by
  unfold format.pack_b at h
  rcases ps with _ | ⟨op, _ | ⟨sub, _ | ⟨rs1, _ | ⟨rs2, _ | ⟨imm, _ | ⟨x, xs⟩⟩⟩⟩⟩⟩
  · cases h
  · cases h
  · cases h
  · cases h
  · cases h
  · obtain ⟨hd, hhd, h⟩ := bind_ok_ex h
    obtain ⟨nv, hnv, h⟩ := bind_ok_ex h
    obtain ⟨opb, hopb, h⟩ := bind_ok_ex h
    obtain ⟨_, _, h⟩ := bind_ok_ex h
    obtain ⟨_, _, h⟩ := bind_ok_ex h
    obtain ⟨_, _, h⟩ := bind_ok_ex h
    obtain ⟨_, _, h⟩ := bind_ok_ex h
    obtain ⟨_, _, h⟩ := bind_ok_ex h
    obtain ⟨_, _, h⟩ := bind_ok_ex h
    obtain ⟨_, _, h⟩ := bind_ok_ex h
    obtain ⟨_, _, h⟩ := bind_ok_ex h
    obtain ⟨_, _, h⟩ := bind_ok_ex h
    obtain ⟨immv, _, h⟩ := bind_ok_ex h
    obtain ⟨imm_lo, _, h⟩ := bind_ok_ex h
    obtain ⟨imm_md, _, h⟩ := bind_ok_ex h
    obtain ⟨imm_11, _, h⟩ := bind_ok_ex h
    obtain ⟨imm_12, _, h⟩ := bind_ok_ex h
    have hhd2 := untag_none_ok hhd
    subst hhd2
    have hhead := asInt_ok hnv
    obtain ⟨hopb_eq, hlt⟩ := u_ok_inv hopb
    subst hopb_eq
    cases h
    exact ⟨nv, _, op, _, rfl, hhead, rfl, hlt⟩
  · cases h

/-- Bits shifted in above position `s` do not change the low `s` bits. -/
theorem lor_shift_mod (v p s : Nat) : (v ||| p <<< s) % 2 ^ s = v % 2 ^ s := by
  apply Nat.eq_of_testBit_eq
  intro i
  simp only [Nat.testBit_mod_two_pow, Nat.testBit_or, Nat.testBit_shiftLeft]
  by_cases hi : i < s
  · simp [hi, show ¬ s ≤ i by omega]
  · simp [hi]

/-- The fold inside `bits.concat` never disturbs the bits already below
the accumulated width. -/
theorem concat_fold_mod (rest : List Bits) : ∀ v s : Nat,
    ((rest.foldl (fun acc p => (acc.1 ||| p.1 <<< acc.2, acc.2 + p.2)) (v, s)).1) % 2 ^ s
      = v % 2 ^ s := by
  induction rest with
  | nil => intro v s; rfl
  | cons p rest ih =>
    intro v s
    rw [List.foldl_cons]
    have hdvd : (2 : Nat) ^ s ∣ 2 ^ (s + p.2) := pow_dvd_pow 2 (Nat.le_add_right s p.2)
    calc ((rest.foldl _ (v ||| p.1 <<< s, s + p.2)).1) % 2 ^ s
        = ((rest.foldl _ (v ||| p.1 <<< s, s + p.2)).1) % 2 ^ (s + p.2) % 2 ^ s :=
          (Nat.mod_mod_of_dvd _ hdvd).symm
      _ = (v ||| p.1 <<< s) % 2 ^ (s + p.2) % 2 ^ s := by rw [ih (v ||| p.1 <<< s) (s + p.2)]
      _ = (v ||| p.1 <<< s) % 2 ^ s := Nat.mod_mod_of_dvd _ hdvd
      _ = v % 2 ^ s := lor_shift_mod v p.1 s

/-- The low bits of a concatenation are the first field's value. -/
theorem concat_head_mod (a w : Nat) (rest : List Bits) :
    (bits.concat ((a, w) :: rest)).1 % 2 ^ w = a % 2 ^ w := by
  unfold bits.concat
  rw [List.foldl_cons]
  dsimp only
  simp only [Nat.zero_or, Nat.shiftLeft_zero, Nat.zero_add]
  exact concat_fold_mod rest a w

/-- C4: an instruction accepted by the Format stage whose emitted fields
are all concrete concatenates (low-to-high) to a word whose low 7 bits are
the canonical opcode of its mnemonic; and Format rejects an unknown
mnemonic or a written opcode different from the canonical one. -/
theorem claim_C4 :
    (∀ (parts : List IlPart) (fs : List PField) (bs : List Bits)
       (op : IlPart) (rest : List IlPart) (label : String) (opc : Nat),
      parts = op :: rest → op.tags = [label] → format.canonOpcode label = some opc →
      format.format_instr parts = .ok fs → fs = bs.map PField.bits →
      (bits.concat bs).1 % 2 ^ 7 = opc)
    ∧ (∀ (op : IlPart) (rest : List IlPart) (label : String),
      op.tags = [label] → format.instr_map label = none →
      format.format_instr (op :: rest) = .error (.unknownInstr label))
    ∧ (∀ (op : IlPart) (rest : List IlPart) (label : String) (n : Int)
       (pk : List IlPart → Except Err (List PField)) (opc : Nat),
      op.tags = [label] → op.head = .num n → format.instr_map label = some (pk, opc) →
      n ≠ (opc : Int) →
      format.format_instr (op :: rest) = .error (.opcodeMismatch n label opc)) := by
  have packer_head : ∀ (label : String) (pk : List IlPart → Except Err (List PField))
      (opc : Nat), format.instr_map label = some (pk, opc) →
      ∀ ps fs, pk ps = .ok fs →
      ∃ (nv : Int) (rest : List PField) (op : IlPart) (ps' : List IlPart),
        ps = op :: ps' ∧ op.head = .num nv
        ∧ fs = .bits (nv.toNat, 7) :: rest ∧ nv.toNat < 2 ^ 7 := by
    intro label pk opc hmap ps fs hpk
    unfold format.instr_map at hmap
    split_ifs at hmap
    · cases hmap; exact pack_i_head ps fs hpk
    · cases hmap; exact pack_i_head ps fs hpk
    · cases hmap; exact pack_i_head ps fs hpk
    · cases hmap; exact pack_s_head ps fs hpk
    · cases hmap; exact pack_b_head ps fs hpk
    · cases hmap; exact pack_u_head ps fs hpk
    · cases hmap; exact pack_u_head ps fs hpk
    · cases hmap; exact pack_j_head ps fs hpk
  refine ⟨?_, ?_, ?_⟩
  · intro parts fs bs op rest label opc hparts htags hcanon hfi hbs
    subst hparts
    unfold format.format_instr at hfi
    dsimp only at hfi
    rw [htags] at hfi
    dsimp only at hfi
    unfold format.canonOpcode at hcanon
    cases hmap : format.instr_map label with
    | none => rw [hmap] at hcanon; cases hcanon
    | some pe =>
      obtain ⟨pk, opc'⟩ := pe
      rw [hmap] at hcanon hfi
      dsimp only at hfi
      have hopc : opc = opc' := (Option.some.inj hcanon).symm
      subst hopc
      cases hhead : op.head with
      | sym s => rw [hhead] at hfi; cases hfi
      | num n =>
        rw [hhead] at hfi
        dsimp only at hfi
        split at hfi
        · rename_i hn
          subst hn
          obtain ⟨nv, rest', op2, ps', hps, hh2, hfs, hlt⟩ :=
            packer_head label pk opc hmap _ _ hfi
          cases hps
          rw [hhead] at hh2
          cases hh2
          rw [hfs] at hbs
          cases bs with
          | nil => cases hbs
          | cons b bs' =>
            simp only [List.map_cons] at hbs
            have h1 := List.head_eq_of_cons_eq hbs
            injection h1 with h2
            subst h2
            rw [concat_head_mod, Nat.mod_eq_of_lt hlt]
            omega
        · cases hfi
  · intro op rest label htags hmap
    unfold format.format_instr
    dsimp only
    rw [htags]
    dsimp only
    rw [hmap]
  · intro op rest label n pk opc htags hhead hmap hne
    unfold format.format_instr
    dsimp only
    rw [htags]
    dsimp only
    rw [hmap]
    dsimp only
    rw [hhead]
    dsimp only
    rw [if_neg hne]
/-- C4 witness: the doctest `lui` instruction concatenates to a word whose
low 7 bits are 0x37; an unknown mnemonic and a mismatched opcode are
rejected. -/
theorem claim_C4_witness :
    (bits.concat [(0x37, 7), (5, 5), (0x10010, 20)]).1 % 2 ^ 7 = 0x37
    ∧ format.format_instr [⟨.num 0x99, ["bogus"]⟩] = .error (.unknownInstr "bogus")
    ∧ format.format_instr [⟨.num 0x13, ["lui"]⟩, ⟨.num 5, ["rd", "t0"]⟩,
        ⟨.num 0x10010, ["imm20"]⟩] = .error (.opcodeMismatch 0x13 "lui" 0x37) := by
  refine ⟨?_, ?_, ?_⟩
  · exact claim_C4.1
      [⟨.num 0x37, ["lui"]⟩, ⟨.num 5, ["rd", "t0"]⟩, ⟨.num 0x10010, ["imm20"]⟩]
      [.bits (0x37, 7), .bits (5, 5), .bits (0x10010, 20)]
      [(0x37, 7), (5, 5), (0x10010, 20)]
      ⟨.num 0x37, ["lui"]⟩ [⟨.num 5, ["rd", "t0"]⟩, ⟨.num 0x10010, ["imm20"]⟩]
      "lui" 0x37 rfl rfl (by decide) (by decide) rfl
  · exact claim_C4.2.1 ⟨.num 0x99, ["bogus"]⟩ [] "bogus" rfl rfl
  · exact claim_C4.2.2 ⟨.num 0x13, ["lui"]⟩
      [⟨.num 5, ["rd", "t0"]⟩, ⟨.num 0x10010, ["imm20"]⟩] "lui" 0x13
      format.pack_u 0x37 rfl rfl rfl (by decide)

/-- C3 counterexample: printing an instruction line that carries comment
`c` and re-parsing the text yields comment ` c` — the separator space
becomes part of the comment, so `parse(print(line)) ≠ line`. -/
theorem claim_C3_counterexample :
    subv.format ⟨"", "", some "c", .instr [⟨.num 255, ["op"]⟩]⟩ = .ok "ff/op # c"
    ∧ subv.parse "ff/op # c"
      = .ok ⟨"ff/op # c", "ff/op ", some " c", .instr [⟨.num 255, ["op"]⟩]⟩
    ∧ (some " c" : Option String) ≠ some "c" := by
  refine ⟨by decide, by decide, by decide⟩

/-! Character-class facts feeding the round-trip proof. -/

theorem inert_props (c : Char) (h : inertChar c = true) :
    c ≠ '/' ∧ c ≠ '#' ∧ isSepWh c = false ∧ isStripWh c = false := by
  have h2 : ¬ (c = '/' ∨ c = '#' ∨ c = ' ' ∨ c = '\t' ∨ c = '.' ∨ c = '\n' ∨ c = '\r') := by
    simpa [inertChar] using h
  push_neg at h2
  obtain ⟨h1, h2, h3, h4, h5, h6, h7⟩ := h2
  refine ⟨h1, h2, ?_, ?_⟩
  · simp [isSepWh, h3, h4, h5, h6]
  · simp [isStripWh, h3, h4, h6, h7]

theorem hexDigit_ne (c d : Char) (h : isHexDigit c = true)
    (hd : isHexDigit d = false) : c ≠ d := by
  intro heq
  subst heq
  rw [h] at hd
  cases hd

theorem hexDigit_inert (c : Char) (h : isHexDigit c = true) : inertChar c = true := by
  have h2 : ¬ (c = '/' ∨ c = '#' ∨ c = ' ' ∨ c = '\t' ∨ c = '.' ∨ c = '\n' ∨ c = '\r') := by
    rintro (rfl | rfl | rfl | rfl | rfl | rfl | rfl) <;> revert h <;> decide
  simpa [inertChar] using h2

theorem hex02_chars (n : Int) :
    ∀ c ∈ (hex02 n).data, isHexDigit c = true ∨ c = '-' := by
  intro c hc
  unfold hex02 at hc
  split at hc
  · simp only [String.mk] at hc
    rcases List.mem_cons.mp hc with rfl | hmem
    · right; rfl
    · left
      rcases natDigits_mem_class 16 (by omega) _ c hmem with ⟨d, hd, rfl⟩
      exact digitChar_isHex d hd
  · simp only [String.mk] at hc
    split at hc
    · rcases List.mem_cons.mp hc with rfl | hmem
      · left; decide
      · left
        rcases natDigits_mem_class 16 (by omega) _ c hmem with ⟨d, hd, rfl⟩
        exact digitChar_isHex d hd
    · left
      rcases natDigits_mem_class 16 (by omega) _ c hc with ⟨d, hd, rfl⟩
      exact digitChar_isHex d hd

theorem hex02_inert (n : Int) : ∀ c ∈ (hex02 n).data, inertChar c = true := by
  intro c hc
  rcases hex02_chars n c hc with h | rfl
  · exact hexDigit_inert c h
  · decide

theorem hex02_ne_nil (n : Int) : (hex02 n).data ≠ [] := by
  unfold hex02
  split
  · simp [String.mk]
  · simp only [String.mk]
    split
    · simp
    · intro h
      have h2 : digitsRevAux 16 (n.toNat + 1) n.toNat = [] := by
        have := congrArg List.length h
        simp [natDigits] at this
        exact this
      exact digitsRevAux_ne_nil 16 (n.toNat + 1) n.toNat (by omega) h2

theorem natDigits_ne_nil (b n : Nat) : natDigits b n ≠ [] := by
  intro h
  have h2 : digitsRevAux b (n + 1) n = [] := by
    have := congrArg List.length h
    simp [natDigits] at this
    exact this
  exact digitsRevAux_ne_nil b (n + 1) n (by omega) h2

theorem natDigits_all_hex (m : Nat) : ∀ c ∈ natDigits 16 m, isHexDigit c = true := by
  intro c hc
  rcases natDigits_mem_class 16 (by omega) m c hc with ⟨d, hd, rfl⟩
  exact digitChar_isHex d hd

theorem all_hex_take2_ne (l : List Char) (h : ∀ c ∈ l, isHexDigit c = true) :
    l.take 2 ≠ ['0', 'x'] := by
  intro heq
  cases l with
  | nil => simp [List.take] at heq
  | cons a l' =>
    cases l' with
    | nil => simp [List.take] at heq
    | cons b l'' =>
      simp [List.take] at heq
      have hb := h b (by simp)
      rw [heq.2] at hb
      exact absurd hb (by decide)

theorem all_hex_head_ne_dash (l : List Char) (h : ∀ c ∈ l, isHexDigit c = true) :
    l.head? ≠ some '-' := by
  intro heq
  cases l with
  | nil => cases heq
  | cons a l' =>
    simp at heq
    have ha := h a (by simp)
    rw [heq] at ha
    exact absurd ha (by decide)

theorem hex02_neg_data (n : Int) (hn : n < 0) :
    (hex02 n).data = '-' :: natDigits 16 n.natAbs := by
  unfold hex02
  rw [if_pos hn]

theorem hex02_nonneg_all_hex (n : Int) (hn : 0 ≤ n) :
    ∀ c ∈ (hex02 n).data, isHexDigit c = true := by
  intro c hc
  rcases hex02_chars n c hc with h | rfl
  · exact h
  · exfalso
    rw [hex02] at hc
    rw [if_neg (by omega)] at hc
    simp only [String.mk] at hc
    split at hc
    · rcases List.mem_cons.mp hc with h1 | hmem
      · cases h1
      · exact absurd (natDigits_all_hex n.toNat '-' hmem) (by decide)
    · exact absurd (natDigits_all_hex n.toNat '-' hc) (by decide)

theorem matchesHex_hex02 (n : Int) : matchesHex (hex02 n) = true := by
  by_cases hn : n < 0
  · unfold matchesHex
    dsimp only
    rw [hex02_neg_data n hn]
    have h1 : (if ('-' :: natDigits 16 n.natAbs).head? = some '-'
        then ('-' :: natDigits 16 n.natAbs).tail
        else '-' :: natDigits 16 n.natAbs) = natDigits 16 n.natAbs := by
      simp
    rw [h1]
    rw [if_neg (all_hex_take2_ne _ (natDigits_all_hex n.natAbs))]
    simp [natDigits_ne_nil 16 n.natAbs,
          List.all_eq_true.mpr (natDigits_all_hex n.natAbs)]
  · unfold matchesHex
    dsimp only
    have hall := hex02_nonneg_all_hex n (by omega)
    have h1 : (if (hex02 n).data.head? = some '-'
        then (hex02 n).data.tail
        else (hex02 n).data) = (hex02 n).data := by
      rw [if_neg (all_hex_head_ne_dash _ hall)]
    rw [h1]
    rw [if_neg (all_hex_take2_ne _ hall)]
    simp [hex02_ne_nil n, List.all_eq_true.mpr hall]

theorem foldDigits_cons_zero (b : Nat) (l : List Char) :
    foldDigits b ('0' :: l) = foldDigits b l := by
  have h0 : hexVal '0' = 0 := by decide
  show List.foldl _ (0 * b + hexVal '0') l = List.foldl _ 0 l
  rw [h0, Nat.zero_mul, Nat.add_zero]

theorem parseHexInt_hex02 (n : Int) : parseHexInt (hex02 n) = n := by
  by_cases hn : n < 0
  · unfold parseHexInt
    dsimp only
    rw [hex02_neg_data n hn]
    have h1 : (if ('-' :: natDigits 16 n.natAbs).head? = some '-'
        then ('-' :: natDigits 16 n.natAbs).tail
        else '-' :: natDigits 16 n.natAbs) = natDigits 16 n.natAbs := by
      simp
    rw [h1]
    rw [if_neg (all_hex_take2_ne _ (natDigits_all_hex n.natAbs))]
    rw [if_pos (show ('-' :: natDigits 16 n.natAbs).head? = some '-' from rfl)]
    rw [foldDigits_natDigits 16 (by omega) (by omega) n.natAbs]
    omega
  · unfold parseHexInt
    dsimp only
    have hall := hex02_nonneg_all_hex n (by omega)
    have hdash := all_hex_head_ne_dash _ hall
    have h1 : (if (hex02 n).data.head? = some '-'
        then (hex02 n).data.tail
        else (hex02 n).data) = (hex02 n).data := by
      rw [if_neg hdash]
    rw [h1]
    rw [if_neg (all_hex_take2_ne _ hall)]
    rw [if_neg hdash]
    have hfold : foldDigits 16 (hex02 n).data = n.toNat := by
      rw [hex02]
      rw [if_neg hn]
      simp only [String.mk]
      split
      · rw [foldDigits_cons_zero, foldDigits_natDigits 16 (by omega) (by omega)]
      · rw [foldDigits_natDigits 16 (by omega) (by omega)]
    rw [hfold]
    omega

/-! Splitting joined components recovers them. -/

theorem splitChAux_no (sep : Char) (l acc : List Char) (h : ∀ c ∈ l, c ≠ sep) :
    splitChAux sep l acc = [String.mk (acc.reverse ++ l)] := by
  induction l generalizing acc with
  | nil => simp [splitChAux]
  | cons c rest ih =>
    rw [splitChAux, if_neg (h c (by simp))]
    rw [ih (c :: acc) (fun d hd => h d (by simp [hd]))]
    simp

theorem splitChAux_mid (sep : Char) (l1 l2 acc : List Char) (h : ∀ c ∈ l1, c ≠ sep) :
    splitChAux sep (l1 ++ sep :: l2) acc
      = String.mk (acc.reverse ++ l1) :: splitChAux sep l2 [] := by
  induction l1 generalizing acc with
  | nil => simp [splitChAux]
  | cons c rest ih =>
    rw [List.cons_append, splitChAux, if_neg (h c (by simp))]
    rw [ih (c :: acc) (fun d hd => h d (by simp [hd]))]
    simp

theorem joinStrs_data_cons (sep : String) (a : String) (b : String) (rest : List String) :
    (joinStrs sep (a :: b :: rest)).data
      = a.data ++ sep.data ++ (joinStrs sep (b :: rest)).data := by
  show (a ++ sep ++ joinStrs sep (b :: rest)).data = _
  simp [String.data_append]

theorem splitSlash_join (comps : List String) (hne : comps ≠ [])
    (h : ∀ s ∈ comps, ∀ c ∈ s.data, c ≠ '/') :
    splitSlash (joinStrs "/" comps) = comps := by
  induction comps with
  | nil => exact absurd rfl hne
  | cons a rest ih =>
    cases rest with
    | nil =>
      show splitChAux '/' a.data [] = [a]
      rw [splitChAux_no '/' a.data [] (h a (by simp))]
      simp
    | cons b rest2 =>
      unfold splitSlash
      rw [joinStrs_data_cons]
      rw [show ("/" : String).data = ['/'] from rfl]
      rw [List.append_assoc, List.cons_append, List.nil_append]
      rw [splitChAux_mid '/' a.data _ [] (h a (by simp))]
      rw [show splitChAux '/' (joinStrs "/" (b :: rest2)).data [] = splitSlash (joinStrs "/" (b :: rest2)) from rfl]
      rw [ih (by simp) (fun s hs => h s (by simp [hs]))]
      simp

/-- Printing one well-formed part and re-parsing it is the identity. -/
theorem parse_part_format_part (p : IlPart) (h : wfPart p = true) :
    subv.parse_part (subv.format_part p) = p := by
  have hq : wfHead p.head = true ∧ p.tags.all wfTag = true := by
    have h2 := h
    unfold wfPart at h2
    simpa using h2
  have htags : ∀ t ∈ p.tags, ∀ c ∈ t.data, c ≠ '/' := by
    intro t ht c hc
    have hwf : t.data.all inertChar = true := by
      have h3 := List.all_eq_true.mp hq.2 t ht
      simpa [wfTag] using h3
    exact (inert_props c (List.all_eq_true.mp hwf c hc)).1
  cases hphead : p.head with
  | num n =>
    unfold subv.format_part
    rw [hphead]
    unfold subv.parse_part
    rw [splitSlash_join (hex02 n :: p.tags) (by simp) ?hcomps]
    case hcomps =>
      intro s hs
      rcases List.mem_cons.mp hs with rfl | hmem
      · intro c hc
        exact (inert_props c (hex02_inert n c hc)).1
      · exact htags s hmem
    dsimp only
    rw [if_pos (matchesHex_hex02 n), parseHexInt_hex02 n]
    cases p
    simp at hphead
    rw [hphead]
  | sym s =>
    have hwfh : wfHead (Head.sym s) = true := hphead ▸ hq.1
    have hs : ¬ s.data.isEmpty = true ∧ s.data.all inertChar = true
        ∧ ¬ matchesHex s = true ∧ s.data.head? ≠ some '=' := by
      simpa [wfHead] using hwfh
    unfold subv.format_part
    rw [hphead]
    unfold subv.parse_part
    rw [splitSlash_join (s :: p.tags) (by simp) ?hcomps2]
    case hcomps2 =>
      intro t ht
      rcases List.mem_cons.mp ht with rfl | hmem
      · intro c hc
        exact (inert_props c (List.all_eq_true.mp hs.2.1 c hc)).1
      · exact htags t hmem
    dsimp only
    rw [if_neg hs.2.2.1]
    cases p
    simp at hphead
    rw [hphead]

theorem splitWhAux_one (c : Char) (acc : List Char) :
    splitWhAux [c] acc
      = if isSepWh c then [String.mk acc.reverse, ""]
        else [String.mk (c :: acc).reverse] := rfl

theorem splitWhAux_cons2 (c c2 : Char) (rest acc : List Char) :
    splitWhAux (c :: c2 :: rest) acc
      = if isSepWh c then
          (if isSepWh c2 then splitWhAux (c2 :: rest) acc
           else String.mk acc.reverse :: splitWhAux (c2 :: rest) [])
        else splitWhAux (c2 :: rest) (c :: acc) := rfl

theorem splitWhAux_end (cs : List Char) : ∀ acc : List Char,
    (∀ c ∈ cs, isSepWh c = false) →
    splitWhAux cs acc = [String.mk (acc.reverse ++ cs)] := by
  induction cs with
  | nil => intro acc h; simp [splitWhAux]
  | cons c cs' ih =>
    intro acc h
    cases cs' with
    | nil =>
      rw [splitWhAux_one, if_neg (by simp [h c (by simp)])]
      simp
    | cons e cs'' =>
      rw [splitWhAux_cons2, if_neg (by simp [h c (by simp)])]
      rw [ih (c :: acc) (fun d hd => h d (by simp [hd]))]
      simp

theorem splitWhAux_trail (cs : List Char) : ∀ acc : List Char,
    (∀ c ∈ cs, isSepWh c = false) →
    splitWhAux (cs ++ [' ']) acc = [String.mk (acc.reverse ++ cs), ""] := by
  induction cs with
  | nil =>
    intro acc h
    rw [List.nil_append, splitWhAux_one, if_pos (by decide)]
    simp
  | cons c cs' ih =>
    intro acc h
    cases cs' with
    | nil =>
      rw [List.cons_append, List.nil_append, splitWhAux_cons2,
          if_neg (by simp [h c (by simp)])]
      rw [splitWhAux_one, if_pos (by decide)]
      simp
    | cons e cs'' =>
      rw [List.cons_append, List.cons_append, splitWhAux_cons2,
          if_neg (by simp [h c (by simp)])]
      rw [show e :: (cs'' ++ [' ']) = (e :: cs'') ++ [' '] from rfl]
      rw [ih (c :: acc) (fun d hd => h d (by simp [hd]))]
      simp

theorem splitWhAux_sep (cs : List Char) (d : Char) (rest : List Char) :
    ∀ acc : List Char, (∀ c ∈ cs, isSepWh c = false) → isSepWh d = false →
    splitWhAux (cs ++ ' ' :: d :: rest) acc
      = String.mk (acc.reverse ++ cs) :: splitWhAux (d :: rest) [] := by
  induction cs with
  | nil =>
    intro acc h hd
    rw [List.nil_append, splitWhAux_cons2, if_pos (by decide), if_neg (by simp [hd])]
    simp
  | cons c cs' ih =>
    intro acc h hd
    cases cs' with
    | nil =>
      rw [List.cons_append, List.nil_append, splitWhAux_cons2,
          if_neg (by simp [h c (by simp)])]
      rw [splitWhAux_cons2, if_pos (by decide), if_neg (by simp [hd])]
      simp
    | cons e cs'' =>
      rw [List.cons_append, List.cons_append, splitWhAux_cons2,
          if_neg (by simp [h c (by simp)])]
      rw [show e :: (cs'' ++ ' ' :: d :: rest) = (e :: cs'') ++ ' ' :: d :: rest from rfl]
      rw [ih (c :: acc) (fun x hx => h x (by simp [hx])) hd]
      simp

theorem joinStrs_cons_ex (sep : String) (b : String) (rest : List String) :
    ∃ t : List Char, (joinStrs sep (b :: rest)).data = b.data ++ t := by
  cases rest with
  | nil =>
    refine ⟨[], ?_⟩
    show b.data = b.data ++ []
    simp
  | cons r rest2 =>
    refine ⟨sep.data ++ (joinStrs sep (r :: rest2)).data, ?_⟩
    rw [joinStrs_data_cons]
    simp

theorem splitWh_join (parts : List String) (hne : parts ≠ [])
    (hall : ∀ s ∈ parts, s.data ≠ [] ∧ ∀ c ∈ s.data, isSepWh c = false) :
    splitWh (joinStrs " " parts) = parts := by
  induction parts with
  | nil => exact absurd rfl hne
  | cons a rest ih =>
    cases rest with
    | nil =>
      show splitWhAux a.data [] = [a]
      rw [splitWhAux_end a.data [] (hall a (by simp)).2]
      simp
    | cons b rest2 =>
      unfold splitWh
      rw [joinStrs_data_cons]
      rw [show (" " : String).data = [' '] from rfl]
      obtain ⟨t, ht⟩ := joinStrs_cons_ex " " b rest2
      obtain ⟨c, b', hb⟩ : ∃ c b', b.data = c :: b' := by
        cases hbd : b.data with
        | nil => exact absurd hbd (hall b (by simp)).1
        | cons c b' => exact ⟨c, b', rfl⟩
      rw [ht, hb, List.append_assoc, List.singleton_append, List.cons_append]
      rw [splitWhAux_sep a.data c (b' ++ t) [] (hall a (by simp)).2
          (by
            have := (hall b (by simp)).2 c (by rw [hb]; simp)
            exact this)]
      rw [show c :: (b' ++ t) = (joinStrs " " (b :: rest2)).data by
            rw [ht, hb, List.cons_append]]
      rw [show splitWhAux ((joinStrs " " (b :: rest2)).data) [] = splitWh (joinStrs " " (b :: rest2)) from rfl]
      rw [ih (by simp) (fun s hs => hall s (by simp [hs]))]
      simp

theorem splitWh_join_trail (parts : List String) (hne : parts ≠ [])
    (hall : ∀ s ∈ parts, s.data ≠ [] ∧ ∀ c ∈ s.data, isSepWh c = false) :
    splitWh (joinStrs " " parts ++ " ") = parts ++ [""] := by
  induction parts with
  | nil => exact absurd rfl hne
  | cons a rest ih =>
    cases rest with
    | nil =>
      show splitWhAux (a ++ " ").data [] = [a, ""]
      rw [show (a ++ " ").data = a.data ++ [' '] by simp [String.data_append]]
      rw [splitWhAux_trail a.data [] (hall a (by simp)).2]
      simp
    | cons b rest2 =>
      unfold splitWh
      rw [show (joinStrs " " (a :: b :: rest2) ++ " ").data
            = (joinStrs " " (a :: b :: rest2)).data ++ [' '] by simp [String.data_append]]
      rw [joinStrs_data_cons]
      rw [show (" " : String).data = [' '] from rfl]
      obtain ⟨t, ht⟩ := joinStrs_cons_ex " " b rest2
      obtain ⟨c, b', hb⟩ : ∃ c b', b.data = c :: b' := by
        cases hbd : b.data with
        | nil => exact absurd hbd (hall b (by simp)).1
        | cons c b' => exact ⟨c, b', rfl⟩
      rw [ht, hb]
      rw [show (a.data ++ [' '] ++ (c :: b' ++ t)) ++ [' ']
            = a.data ++ ' ' :: c :: (b' ++ t ++ [' ']) by simp]
      rw [splitWhAux_sep a.data c (b' ++ t ++ [' ']) [] (hall a (by simp)).2
          (by
            have := (hall b (by simp)).2 c (by rw [hb]; simp)
            exact this)]
      have hrw : c :: (b' ++ t ++ [' '])
          = (joinStrs " " (b :: rest2)).data ++ [' '] := by
        rw [ht, hb]
        simp
      rw [hrw]
      rw [show splitWhAux ((joinStrs " " (b :: rest2)).data ++ [' ']) []
            = splitWh (joinStrs " " (b :: rest2) ++ " ") from rfl]
      rw [ih (by simp) (fun s hs => hall s (by simp [hs]))]
      simp

/-! Shape of the printed instruction text, feeding the amended C3
round trip. -/

theorem mk_data (s : String) : String.mk s.data = s := by
  cases s
  rfl

theorem head_append_left (l1 l2 : List Char) (h : l1 ≠ []) :
    (l1 ++ l2).head? = l1.head? := by
  cases l1 with
  | nil => exact absurd rfl h
  | cons a t => rfl

theorem head_opt_mem (l : List Char) (c : Char) (h : l.head? = some c) : c ∈ l := by
  cases l with
  | nil => cases h
  | cons d t =>
    have hd : d = c := Option.some.inj h
    subst hd
    simp

theorem last_opt_mem (l : List Char) (c : Char) (h : l.getLast? = some c) : c ∈ l := by
  rw [← List.head?_reverse] at h
  have hm : c ∈ l.reverse := head_opt_mem l.reverse c h
  exact List.mem_reverse.mp hm

theorem joinStrs_data_mem (sep : String) (comps : List String) :
    ∀ c ∈ (joinStrs sep comps).data, (∃ s ∈ comps, c ∈ s.data) ∨ c ∈ sep.data := by
  induction comps with
  | nil =>
    intro c hc
    simp [joinStrs] at hc
  | cons a rest ih =>
    cases rest with
    | nil =>
      intro c hc
      exact Or.inl ⟨a, by simp, hc⟩
    | cons b rest2 =>
      intro c hc
      rw [joinStrs_data_cons] at hc
      rcases List.mem_append.mp hc with hc1 | hc2
      · rcases List.mem_append.mp hc1 with hca | hcs
        · exact Or.inl ⟨a, by simp, hca⟩
        · exact Or.inr hcs
      · rcases ih c hc2 with ⟨s, hs, hmem⟩ | hsep
        · exact Or.inl ⟨s, by simp [hs], hmem⟩
        · exact Or.inr hsep

theorem joinStrs_ne_nil (sep : String) (a : String) (rest : List String)
    (ha : a.data ≠ []) : (joinStrs sep (a :: rest)).data ≠ [] := by
  obtain ⟨t, ht⟩ := joinStrs_cons_ex sep a rest
  rw [ht]
  intro hnil
  exact ha (List.append_eq_nil.mp hnil).1

theorem joinStrs_head (sep : String) (a : String) (rest : List String)
    (ha : a.data ≠ []) :
    (joinStrs sep (a :: rest)).data.head? = a.data.head? := by
  obtain ⟨t, ht⟩ := joinStrs_cons_ex sep a rest
  rw [ht, head_append_left a.data t ha]

theorem joinStrs_getLast (sep : String) (comps : List String) :
    comps ≠ [] → (∀ s ∈ comps, s.data ≠ []) →
    ∃ b ∈ comps, (joinStrs sep comps).data.getLast? = b.data.getLast? := by
  induction comps with
  | nil => intro h _; exact absurd rfl h
  | cons a rest ih =>
    intro _ hall
    cases rest with
    | nil => exact ⟨a, by simp, rfl⟩
    | cons b rest2 =>
      obtain ⟨w, hw, heq⟩ := ih (by simp) (fun s hs => hall s (by simp [hs]))
      have hne : (joinStrs sep (b :: rest2)).data ≠ [] :=
        joinStrs_ne_nil sep b rest2 (hall b (by simp))
      refine ⟨w, by simp [hw], ?_⟩
      rw [joinStrs_data_cons, List.getLast?_append_of_ne_nil _ hne]
      exact heq

theorem format_part_chars (p : IlPart) (h : wfPart p = true) :
    ∀ c ∈ (subv.format_part p).data, inertChar c = true ∨ c = '/' := by
  have hq : wfHead p.head = true ∧ p.tags.all wfTag = true := by
    have h2 := h
    unfold wfPart at h2
    simpa using h2
  have htags : ∀ t ∈ p.tags, ∀ c ∈ t.data, inertChar c = true := by
    intro t ht c hc
    have hwf : t.data.all inertChar = true := by
      have h3 := List.all_eq_true.mp hq.2 t ht
      simpa [wfTag] using h3
    exact List.all_eq_true.mp hwf c hc
  cases hh : p.head with
  | num n =>
    rw [show subv.format_part p = joinStrs "/" (hex02 n :: p.tags) by
          unfold subv.format_part; rw [hh]]
    intro c hc
    rcases joinStrs_data_mem "/" (hex02 n :: p.tags) c hc with ⟨s, hs, hmem⟩ | hsep
    · rcases List.mem_cons.mp hs with rfl | hmem2
      · exact Or.inl (hex02_inert n c hmem)
      · exact Or.inl (htags s hmem2 c hmem)
    · right
      simpa using hsep
  | sym s =>
    have hwfh : wfHead (Head.sym s) = true := hh ▸ hq.1
    have hs2 : ¬ s.data.isEmpty = true ∧ s.data.all inertChar = true
        ∧ ¬ matchesHex s = true ∧ s.data.head? ≠ some '=' := by
      simpa [wfHead] using hwfh
    rw [show subv.format_part p = joinStrs "/" (s :: p.tags) by
          unfold subv.format_part; rw [hh]]
    intro c hc
    rcases joinStrs_data_mem "/" (s :: p.tags) c hc with ⟨t, ht, hmem⟩ | hsep
    · rcases List.mem_cons.mp ht with rfl | hmem2
      · exact Or.inl (List.all_eq_true.mp hs2.2.1 c hmem)
      · exact Or.inl (htags t hmem2 c hmem)
    · right
      simpa using hsep

theorem format_part_ne_nil (p : IlPart) (h : wfPart p = true) :
    (subv.format_part p).data ≠ [] := by
  have hq : wfHead p.head = true ∧ p.tags.all wfTag = true := by
    have h2 := h
    unfold wfPart at h2
    simpa using h2
  cases hh : p.head with
  | num n =>
    rw [show subv.format_part p = joinStrs "/" (hex02 n :: p.tags) by
          unfold subv.format_part; rw [hh]]
    exact joinStrs_ne_nil "/" _ _ (hex02_ne_nil n)
  | sym s =>
    have hwfh : wfHead (Head.sym s) = true := hh ▸ hq.1
    have hs2 : ¬ s.data.isEmpty = true ∧ s.data.all inertChar = true
        ∧ ¬ matchesHex s = true ∧ s.data.head? ≠ some '=' := by
      simpa [wfHead] using hwfh
    have hsd : s.data ≠ [] := by
      intro hnil
      apply hs2.1
      rw [hnil]
      rfl
    rw [show subv.format_part p = joinStrs "/" (s :: p.tags) by
          unfold subv.format_part; rw [hh]]
    exact joinStrs_ne_nil "/" _ _ hsd

theorem format_part_head_ne (p : IlPart) (h : wfPart p = true) :
    (subv.format_part p).data.head? ≠ some '=' := by
  have hq : wfHead p.head = true ∧ p.tags.all wfTag = true := by
    have h2 := h
    unfold wfPart at h2
    simpa using h2
  cases hh : p.head with
  | num n =>
    rw [show subv.format_part p = joinStrs "/" (hex02 n :: p.tags) by
          unfold subv.format_part; rw [hh]]
    rw [joinStrs_head "/" _ _ (hex02_ne_nil n)]
    cases hd : (hex02 n).data with
    | nil => exact absurd hd (hex02_ne_nil n)
    | cons d t =>
      have hdm : d ∈ (hex02 n).data := by rw [hd]; simp
      rcases hex02_chars n d hdm with hhex | rfl
      · intro heq
        have hde : d = '=' := Option.some.inj heq
        rw [hde] at hhex
        exact absurd hhex (by decide)
      · intro heq
        exact absurd (Option.some.inj heq) (by decide)
  | sym s =>
    have hwfh : wfHead (Head.sym s) = true := hh ▸ hq.1
    have hs2 : ¬ s.data.isEmpty = true ∧ s.data.all inertChar = true
        ∧ ¬ matchesHex s = true ∧ s.data.head? ≠ some '=' := by
      simpa [wfHead] using hwfh
    have hsd : s.data ≠ [] := by
      intro hnil
      apply hs2.1
      rw [hnil]
      rfl
    rw [show subv.format_part p = joinStrs "/" (s :: p.tags) by
          unfold subv.format_part; rw [hh]]
    rw [joinStrs_head "/" _ _ hsd]
    exact hs2.2.2.2

theorem strip_eq_self (s : String)
    (hh : ∀ c, s.data.head? = some c → isStripWh c = false)
    (hl : ∀ c, s.data.getLast? = some c → isStripWh c = false) :
    strip s = s := by
  unfold strip
  have h1 : s.data.dropWhile isStripWh = s.data := by
    cases hd : s.data with
    | nil => rfl
    | cons c t =>
      rw [List.dropWhile_cons_of_neg]
      simp [hh c (by rw [hd]; rfl)]
  rw [h1]
  have h2 : s.data.reverse.dropWhile isStripWh = s.data.reverse := by
    cases hr : s.data.reverse with
    | nil => rfl
    | cons c t =>
      rw [List.dropWhile_cons_of_neg]
      have hlast : s.data.getLast? = some c := by
        rw [← List.head?_reverse, hr]
        rfl
      simp [hl c hlast]
  rw [h2, List.reverse_reverse]

theorem splitHashAux_none (l : List Char) : ∀ acc : List Char,
    (∀ c ∈ l, c ≠ '#') →
    splitHashAux l acc = (String.mk (acc.reverse ++ l), none) := by
  induction l with
  | nil =>
    intro acc h
    simp [splitHashAux]
  | cons c rest ih =>
    intro acc h
    rw [splitHashAux, if_neg (h c (by simp))]
    rw [ih (c :: acc) (fun d hd => h d (by simp [hd]))]
    simp

theorem splitHashAux_mid (l1 : List Char) (l2 : List Char) : ∀ acc : List Char,
    (∀ c ∈ l1, c ≠ '#') →
    splitHashAux (l1 ++ '#' :: l2) acc
      = (String.mk (acc.reverse ++ l1), some (String.mk l2)) := by
  induction l1 with
  | nil =>
    intro acc h
    rw [List.nil_append, splitHashAux, if_pos rfl]
    simp
  | cons c rest ih =>
    intro acc h
    rw [List.cons_append, splitHashAux, if_neg (h c (by simp))]
    rw [ih (c :: acc) (fun d hd => h d (by simp [hd]))]
    simp

theorem take2_ne_eqeq (l : List Char) (h : l.head? ≠ some '=') :
    l.take 2 ≠ ['=', '='] := by
  cases l with
  | nil => simp
  | cons c t =>
    intro heq
    rw [show (c :: t).take 2 = c :: t.take 1 from rfl] at heq
    have hc : c = '=' := (List.cons.inj heq).1
    subst hc
    exact h rfl

/-- C3 (amended): printing a well-formed instruction line and re-parsing
the printed text recovers the structured content exactly — the raw text is
the printed line, the parsed parts with their heads and tags return
unchanged — while a comment returns with the printer's separator space
attached (` c` instead of `c`). -/
theorem claim_C3_amended (raw0 clean0 : String) (comment : Option String)
    (ps : List IlPart) (out : String)
    (h1 : wfInstr ps = true) (h2 : wfComment comment = true)
    (hout : subv.format ⟨raw0, clean0, comment, .instr ps⟩ = .ok out) :
    ∃ l : Line, subv.parse out = .ok l ∧ l.raw = out ∧ l.parsed = .instr ps
      ∧ l.comment = comment.map (fun c => " " ++ c) := by
  have hw : ¬ (ps.isEmpty = true) ∧ (ps.all wfPart = true)
      ∧ (joinStrs " " (ps.map subv.format_part)).data.getLast? ≠ some ':' := by
    have h3 := h1
    unfold wfInstr at h3
    exact of_decide_eq_true h3
  have hpsne : ps ≠ [] := by
    intro hnil
    apply hw.1
    rw [hnil]
    rfl
  have hpswf : ∀ p ∈ ps, wfPart p = true := List.all_eq_true.mp hw.2.1
  obtain ⟨p0, ps', hps⟩ : ∃ p0 ps', ps = p0 :: ps' := by
    cases ps with
    | nil => exact absurd rfl hpsne
    | cons a t => exact ⟨a, t, rfl⟩
  have hp0wf : wfPart p0 = true := hpswf p0 (by rw [hps]; simp)
  have hp0 : (subv.format_part p0).data ≠ [] := format_part_ne_nil p0 hp0wf
  have hprne : ∀ s ∈ ps.map subv.format_part, s.data ≠ [] := by
    intro s hs
    obtain ⟨p, hp, rfl⟩ := List.mem_map.mp hs
    exact format_part_ne_nil p (hpswf p hp)
  have hprchar : ∀ s ∈ ps.map subv.format_part, ∀ c ∈ s.data,
      inertChar c = true ∨ c = '/' := by
    intro s hs
    obtain ⟨p, hp, rfl⟩ := List.mem_map.mp hs
    exact format_part_chars p (hpswf p hp)
  have hallsep : ∀ s ∈ ps.map subv.format_part,
      s.data ≠ [] ∧ ∀ c ∈ s.data, isSepWh c = false := by
    intro s hs
    refine ⟨hprne s hs, fun c hc => ?_⟩
    rcases hprchar s hs c hc with hi | rfl
    · exact (inert_props c hi).2.2.1
    · decide
  have hpackedchar : ∀ c ∈ (joinStrs " " (ps.map subv.format_part)).data,
      inertChar c = true ∨ c = '/' ∨ c = ' ' := by
    intro c hc
    rcases joinStrs_data_mem " " (ps.map subv.format_part) c hc with ⟨s, hs, hm⟩ | hsep
    · rcases hprchar s hs c hm with hi | rfl
      · exact Or.inl hi
      · exact Or.inr (Or.inl rfl)
    · right; right
      simpa using hsep
  have hnohash : ∀ c ∈ (joinStrs " " (ps.map subv.format_part)).data, c ≠ '#' := by
    intro c hc
    rcases hpackedchar c hc with hi | rfl | rfl
    · exact (inert_props c hi).2.1
    · decide
    · decide
  have hpackedne : (joinStrs " " (ps.map subv.format_part)).data ≠ [] := by
    rw [hps, List.map_cons]
    exact joinStrs_ne_nil " " _ _ hp0
  have hhead : (joinStrs " " (ps.map subv.format_part)).data.head?
      = (subv.format_part p0).data.head? := by
    rw [hps, List.map_cons]
    exact joinStrs_head " " _ _ hp0
  have hheadne : (joinStrs " " (ps.map subv.format_part)).data.head? ≠ some '=' := by
    rw [hhead]
    exact format_part_head_ne p0 hp0wf
  have hheadstrip : ∀ c, (joinStrs " " (ps.map subv.format_part)).data.head? = some c →
      isStripWh c = false := by
    intro c hc
    rw [hhead] at hc
    have hm : c ∈ (subv.format_part p0).data := head_opt_mem _ c hc
    rcases format_part_chars p0 hp0wf c hm with hi | rfl
    · exact (inert_props c hi).2.2.2
    · decide
  have hlaststrip : ∀ c, (joinStrs " " (ps.map subv.format_part)).data.getLast? = some c →
      isStripWh c = false := by
    intro c hc
    obtain ⟨b, hb, heq⟩ := joinStrs_getLast " " (ps.map subv.format_part)
        (by rw [hps]; simp) hprne
    rw [heq] at hc
    have hm : c ∈ b.data := last_opt_mem _ c hc
    rcases hprchar b hb c hm with hi | rfl
    · exact (inert_props c hi).2.2.2
    · decide
  have hne_str : (joinStrs " " (ps.map subv.format_part)) ≠ "" := by
    intro heq
    rw [heq] at hpackedne
    exact hpackedne rfl
  have hsplit : splitHash (joinStrs " " (ps.map subv.format_part))
      = (joinStrs " " (ps.map subv.format_part), none) := by
    unfold splitHash
    rw [splitHashAux_none _ [] hnohash]
    simp [mk_data]
  have hclass : subv.classifyK (joinStrs " " (ps.map subv.format_part)) = .instr := by
    unfold subv.classifyK
    rw [if_neg hne_str, if_neg (take2_ne_eqeq _ hheadne), if_neg hw.2.2]
  have hinstr : subv.parse_instr (joinStrs " " (ps.map subv.format_part)) = ps := by
    unfold subv.parse_instr
    rw [splitWh_join (ps.map subv.format_part) (by rw [hps]; simp) hallsep]
    rw [List.filter_eq_self.mpr ?hf]
    case hf =>
      intro s hs
      have hsne : s ≠ "" := by
        intro heq
        exact hprne s hs (by rw [heq])
      simpa using hsne
    rw [List.map_map]
    have hmapid : ps.map (subv.parse_part ∘ subv.format_part) = ps.map id := by
      apply List.map_congr_left
      intro p hp
      exact parse_part_format_part p (hpswf p hp)
    rw [hmapid, List.map_id]
  cases comment with
  | none =>
    have hout' : out = joinStrs " " (ps.map subv.format_part) := by
      unfold subv.format at hout
      dsimp only at hout
      exact (Except.ok.inj hout).symm
    subst hout'
    refine ⟨⟨joinStrs " " (ps.map subv.format_part),
             joinStrs " " (ps.map subv.format_part), none, .instr ps⟩,
            ?_, rfl, rfl, rfl⟩
    unfold subv.parse
    rw [strip_eq_self _ hheadstrip hlaststrip]
    dsimp only
    rw [hsplit]
    dsimp only
    rw [hclass]
    dsimp only
    rw [hinstr]
  | some c =>
    obtain ⟨ch, hch, hchs⟩ : ∃ ch, c.data.getLast? = some ch ∧ isStripWh ch = false := by
      unfold wfComment at h2
      dsimp only at h2
      cases hgl : c.data.getLast? with
      | none =>
        rw [hgl] at h2
        simp at h2
      | some ch =>
        rw [hgl] at h2
        dsimp only at h2
        exact ⟨ch, rfl, by simpa using h2⟩
    have hcdne : c.data ≠ [] := by
      intro hnil
      rw [hnil] at hch
      cases hch
    have hcne : c ≠ "" := by
      intro heq
      rw [heq] at hcdne
      exact hcdne rfl
    have hout' : out = joinStrs " " (ps.map subv.format_part) ++ " # " ++ c := by
      unfold subv.format at hout
      dsimp only at hout
      rw [if_neg hcne] at hout
      exact (Except.ok.inj hout).symm
    have houtdata : out.data
        = ((joinStrs " " (ps.map subv.format_part)).data ++ [' '])
          ++ '#' :: (' ' :: c.data) := by
      rw [hout', String.data_append, String.data_append]
      rw [show (" # " : String).data = [' ', '#', ' '] from rfl]
      simp
    have hohead : out.data.head? = (joinStrs " " (ps.map subv.format_part)).data.head? := by
      rw [houtdata, List.append_assoc, head_append_left _ _ hpackedne]
    have holast : out.data.getLast? = c.data.getLast? := by
      rw [houtdata, List.getLast?_append_of_ne_nil _ (by simp)]
      rw [show ('#' :: ' ' :: c.data) = ['#', ' '] ++ c.data from rfl]
      rw [List.getLast?_append_of_ne_nil _ hcdne]
    have hstripo : strip out = out := by
      apply strip_eq_self
      · intro d hd
        rw [hohead] at hd
        exact hheadstrip d hd
      · intro d hd
        rw [holast, hch] at hd
        exact Option.some.inj hd ▸ hchs
    have hspdata : (" " : String).data = [' '] := rfl
    have e1 : String.mk ((joinStrs " " (ps.map subv.format_part)).data ++ [' '])
        = joinStrs " " (ps.map subv.format_part) ++ " " := by
      rw [show (joinStrs " " (ps.map subv.format_part)).data ++ [' ']
            = (joinStrs " " (ps.map subv.format_part) ++ " ").data by
          rw [String.data_append, hspdata]]
    have e2 : String.mk (' ' :: c.data) = " " ++ c := by
      rw [show (' ' :: c.data) = (" " ++ c).data by
          rw [String.data_append, hspdata, List.singleton_append]]
    have hsplito : splitHash out
        = (joinStrs " " (ps.map subv.format_part) ++ " ", some (" " ++ c)) := by
      unfold splitHash
      rw [houtdata]
      rw [splitHashAux_mid _ _ [] ?hnh]
      case hnh =>
        intro d hd
        rcases List.mem_append.mp hd with hd1 | hd2
        · exact hnohash d hd1
        · have hds : d = ' ' := by simpa using hd2
          rw [hds]
          decide
      rw [List.reverse_nil, List.nil_append, e1, e2]
    have hcw : (joinStrs " " (ps.map subv.format_part) ++ " ").data
        = (joinStrs " " (ps.map subv.format_part)).data ++ [' '] := by
      rw [String.data_append]
    have hn1 : ¬ (joinStrs " " (ps.map subv.format_part) ++ " " = "") := by
      intro heq
      have hd := congrArg String.data heq
      rw [hcw] at hd
      exact absurd hd (by simp)
    have hn2 : (joinStrs " " (ps.map subv.format_part) ++ " ").data.take 2
        ≠ ['=', '='] := by
      apply take2_ne_eqeq
      rw [hcw, head_append_left _ _ hpackedne]
      exact hheadne
    have hn3 : (joinStrs " " (ps.map subv.format_part) ++ " ").data.getLast?
        ≠ some ':' := by
      rw [hcw, List.getLast?_append_of_ne_nil _ (by simp)]
      decide
    have hclass2 : subv.classifyK (joinStrs " " (ps.map subv.format_part) ++ " ")
        = .instr := by
      unfold subv.classifyK
      rw [if_neg hn1, if_neg hn2, if_neg hn3]
    have hinstr2 : subv.parse_instr (joinStrs " " (ps.map subv.format_part) ++ " ")
        = ps := by
      unfold subv.parse_instr
      rw [splitWh_join_trail (ps.map subv.format_part) (by rw [hps]; simp) hallsep]
      rw [List.filter_append]
      rw [List.filter_eq_self.mpr ?hf2]
      case hf2 =>
        intro s hs
        have hsne : s ≠ "" := by
          intro heq
          exact hprne s hs (by rw [heq])
        simpa using hsne
      rw [show List.filter (fun p => p ≠ "") [""] = [] from by decide]
      rw [List.append_nil, List.map_map]
      have hmapid : ps.map (subv.parse_part ∘ subv.format_part) = ps.map id := by
        apply List.map_congr_left
        intro p hp
        exact parse_part_format_part p (hpswf p hp)
      rw [hmapid, List.map_id]
    refine ⟨⟨out, joinStrs " " (ps.map subv.format_part) ++ " ",
             some (" " ++ c), .instr ps⟩, ?_, rfl, rfl, rfl⟩
    unfold subv.parse
    rw [hstripo]
    dsimp only
    rw [hsplito]
    dsimp only
    rw [hclass2]
    dsimp only
    rw [hinstr2]

/-- C3 amended, witness: the two-part line `ff/op x1/rd` with comment `hi`
prints to `ff/op x1/rd # hi`, which re-parses to an instruction line with
the same parts and comment ` hi`. -/
theorem claim_C3_amended_witness :
    wfInstr [⟨.num 255, ["op"]⟩, ⟨.sym "x1", ["rd"]⟩] = true
    ∧ wfComment (some "hi") = true
    ∧ subv.format ⟨"", "", some "hi", .instr [⟨.num 255, ["op"]⟩, ⟨.sym "x1", ["rd"]⟩]⟩
        = .ok "ff/op x1/rd # hi"
    ∧ ∃ l : Line, subv.parse "ff/op x1/rd # hi" = .ok l
        ∧ l.raw = "ff/op x1/rd # hi"
        ∧ l.parsed = .instr [⟨.num 255, ["op"]⟩, ⟨.sym "x1", ["rd"]⟩]
        ∧ l.comment = (some "hi").map (fun c => " " ++ c) :=
  ⟨by decide, by decide, by decide,
   claim_C3_amended "" "" (some "hi") [⟨.num 255, ["op"]⟩, ⟨.sym "x1", ["rd"]⟩]
     "ff/op x1/rd # hi" (by decide) (by decide) (by decide)⟩
